import Mathlib

/-!
# Verification of the goleveldb leveled-compaction engine

Shallow embedding of the compaction subsystem of
`vendor/github.com/syndtr/goleveldb/leveldb` (files `db_compaction.go` and
`session_compaction.go`), together with proofs checking the natural-language
specification against it.

Conventions of the embedding:
* Go byte slices (user keys, values) are `List Nat`.
* `uint64` sequence numbers and `int64` sizes are `Nat` (the source only ever
  adds non-negative quantities and compares; no overflow is reachable in the
  modelled states).
* The bytewise comparer (`icmp.uCompare`) is lexicographic comparison on
  `List Nat`; the internal-key comparer (`icmp.Compare`) orders by user key
  ascending, then by the `(seq, kind)` trailer descending, exactly as the
  `iComparer` of the library does.
* Functions of the two examined source files are translated one-to-one and
  keep their names.  Helpers that live in files outside the examined sources
  (`tFiles.getOverlaps`, `tFiles.getRange`, `parseInternalKey`,
  `sessionRecord`, the `opt` package) are modelled from the specification and
  marked `Modelled from the spec:` in their doc comments.
-/

/-- Three-way comparison on `Nat`, the element comparison underlying the
bytewise comparer. -/
def nCmp (a b : Nat) : Ordering :=
  if a < b then .lt else if a = b then .eq else .gt

/-- A user key: a byte string. -/
abbrev UKey := List Nat

/-- `icmp.uCompare`: bytewise (lexicographic) comparison of user keys.
Modelled from the spec: the engine orders user keys by the default bytewise
comparer. -/
def uCmp : UKey → UKey → Ordering
  | [], [] => .eq
  | [], _ :: _ => .lt
  | _ :: _, [] => .gt
  | a :: as, b :: bs =>
    match nCmp a b with
    | .eq => uCmp as bs
    | o => o

/-- Operation kind stored in an internal key (`keyTypeDel` / `keyTypeVal`). -/
inductive Kind where
  | del
  | val
  deriving DecidableEq, Repr

/-- Numeric code of a kind (`keyTypeDel = 0`, `keyTypeVal = 1`). -/
def Kind.code : Kind → Nat
  | .del => 0
  | .val => 1

/-- A decoded internal key: user key, sequence number and kind.
Modelled from the spec: "Internal key: an encoded (user key, sequence number,
operation kind) tuple used for ordering and obsolescence decisions." -/
structure IKey where
  ukey : UKey
  seq : Nat
  kind : Kind
  deriving DecidableEq, Repr

/-- `icmp.Compare` on internal keys: user key ascending, then the trailer
`seq << 8 | kind` descending. Modelled from the spec (ordering of internal
keys); it matches the library's `iComparer`. -/
def iCmp (a b : IKey) : Ordering :=
  match uCmp a.ukey b.ukey with
  | .eq => nCmp (b.seq * 256 + b.kind.code) (a.seq * 256 + a.kind.code)
  | o => o

/-- `keyMaxSeq`: the largest representable sequence number, `2^56 - 1`. -/
def keyMaxSeq : Nat := 2 ^ 56 - 1

/-- A raw key as produced by the merged input iterator: either a well-formed
internal key or an undecodable blob. -/
inductive RawKey where
  | ok (k : IKey)
  | bad (blob : List Nat)
  deriving DecidableEq, Repr

/-- `parseInternalKey`. Modelled from the spec: decoding an internal key
yields its (user key, sequence, kind) triple and can fail; on failure the
decode error is returned. -/
def parseInternalKey : RawKey → Except (List Nat) IKey
  | .ok k => .ok k
  | .bad blob => .error blob

/-- One key/value entry of the merged compaction input iterator. -/
structure Entry where
  key : RawKey
  value : List Nat
  deriving DecidableEq, Repr

/-- A table-file descriptor: file number, byte size and covered key range
(`tFile`). -/
structure TFile where
  num : Nat
  size : Nat
  imin : IKey
  imax : IKey
  deriving DecidableEq, Repr

/-- `tFiles.size()`: total byte size of a file group. -/
def tSize (ts : List TFile) : Nat := (ts.map TFile.size).sum

/- ### The `compaction` job descriptor (`session_compaction.go`) -/

/-- Compaction type tags (`undefinedCompaction` and friends, `iota` order). -/
def undefinedCompaction : Nat := 0

def level0Compaction : Nat := 1

def nonLevel0Compaction : Nat := 2

def seekCompaction : Nat := 3

/-- The `compaction` struct of `session_compaction.go`.  `vLevels` stands for
`c.v.levels`, the per-level table lists of the Version the compaction was
built from; `levels0`/`levels1` are the two entries of `c.levels`. -/
structure Compaction where
  typ : Nat
  sourceLevel : Nat
  vLevels : List (List TFile)
  levels0 : List TFile
  levels1 : List TFile
  maxGPOverlaps : Nat
  skips : List TFile
  skipIndex : Nat
  gp : List TFile
  gpi : Nat
  seenKey : Bool
  gpOverlappedBytes : Nat
  imin : IKey
  imax : IKey
  tPtrs : List Nat
  snapGPI : Nat
  snapSeenKey : Bool
  snapGPOverlappedBytes : Nat
  snapTPtrs : List Nat
  snapSkipIndex : Nat
  overflowed : Bool
  deriving DecidableEq, Repr

/-- `compaction.save`: snapshot the progress cursors. -/
def Compaction.save (c : Compaction) : Compaction :=
  { c with
    snapGPI := c.gpi
    snapSeenKey := c.seenKey
    snapGPOverlappedBytes := c.gpOverlappedBytes
    snapTPtrs := c.tPtrs
    snapSkipIndex := c.skipIndex }

/-- `compaction.restore`: reset the progress cursors to the snapshot. -/
def Compaction.restore (c : Compaction) : Compaction :=
  { c with
    gpi := c.snapGPI
    seenKey := c.snapSeenKey
    gpOverlappedBytes := c.snapGPOverlappedBytes
    tPtrs := c.snapTPtrs
    skipIndex := c.snapSkipIndex }

/-- `compaction.trivial`: single source file, empty target-level group,
grandparent overlap within the configured bound. -/
def Compaction.trivial (c : Compaction) : Bool :=
  c.levels0.length == 1 && c.levels1.length == 0 && tSize c.gp ≤ c.maxGPOverlaps

/-- Inner loop of `compaction.baseLevelForKey` for one level: advance the
per-level pointer `ptr` over the remaining tables (`tables` is the list
suffix starting at `ptr`).  Returns `(false, ptr)` when the key falls inside
the table at `ptr`, `(true, ptr)` when the loop breaks or the level is
exhausted. -/
def scanLevel (ukey : UKey) : List TFile → Nat → Bool × Nat
  | [], ptr => (true, ptr)
  | t :: rest, ptr =>
    if uCmp ukey t.imax.ukey ≠ .gt then
      if uCmp ukey t.imin.ukey ≠ .lt then (false, ptr) else (true, ptr)
    else scanLevel ukey rest (ptr + 1)

/-- Outer loop of `compaction.baseLevelForKey` over the levels from
`sourceLevel + 2` up; `lvls` is the suffix `vLevels.drop level`.  An early
`return false` leaves the pointers of the deeper levels untouched, exactly as
in the source. -/
def blfkGo (ukey : UKey) : List (List TFile) → Nat → List Nat → Bool × List Nat
  | [], _, tPtrs => (true, tPtrs)
  | tables :: rest, level, tPtrs =>
    let p := tPtrs.getD level 0
    let r := scanLevel ukey (tables.drop p) p
    let tPtrs' := tPtrs.set level r.2
    if r.1 then blfkGo ukey rest (level + 1) tPtrs' else (false, tPtrs')

/-- `compaction.baseLevelForKey`: true iff, advancing the per-level cursors,
no table at any level ≥ `sourceLevel + 2` covers `ukey`. -/
def Compaction.baseLevelForKey (c : Compaction) (ukey : UKey) : Bool × Compaction :=
  let r := blfkGo ukey (c.vLevels.drop (c.sourceLevel + 2)) (c.sourceLevel + 2) c.tPtrs
  (r.1, { c with tPtrs := r.2 })

/-- First loop of `compaction.shouldStopBefore`: walk the grandparent tables
from cursor `gpi` (the list argument is `gp.drop gpi`), accumulating the
sizes of tables passed while `seenKey` holds.  Returns the new cursor and
accumulator. -/
def gpScan (ikey : IKey) : List TFile → Nat → Bool → Nat → Nat × Nat
  | [], gpi, _, bytes => (gpi, bytes)
  | gp :: rest, gpi, seenKey, bytes =>
    if iCmp ikey gp.imax ≠ .gt then (gpi, bytes)
    else gpScan ikey rest (gpi + 1) seenKey (if seenKey then bytes + gp.size else bytes)

/-- Second loop of `compaction.shouldStopBefore`: hop across the skipped
tables whose minimum key the current key has passed (the list argument is
`skips.drop skipIndex`); each hop forces a stop. -/
def skipScan (ukey : UKey) : List TFile → Nat → Bool → Nat × Bool
  | [], si, stop => (si, stop)
  | t :: rest, si, stop =>
    if uCmp ukey t.imin.ukey = .lt then (si, stop)
    else skipScan ukey rest (si + 1) true

/-- `compaction.shouldStopBefore`. -/
def Compaction.shouldStopBefore (c : Compaction) (ikey : IKey) : Bool × Compaction :=
  let g := gpScan ikey (c.gp.drop c.gpi) c.gpi c.seenKey c.gpOverlappedBytes
  let bytes := if g.2 > c.maxGPOverlaps then 0 else g.2
  let stop1 : Bool := g.2 > c.maxGPOverlaps
  let sk := skipScan ikey.ukey (c.skips.drop c.skipIndex) c.skipIndex stop1
  (sk.2,
    { c with gpi := g.1, seenKey := true, gpOverlappedBytes := bytes, skipIndex := sk.1 })

/- ### Options and session record -/

/-- Modelled from the spec: the recognized configuration surface (§6):
per-level size thresholds, expansion and grandparent-overlap limits, target
output table size, level-0 write-pause file count, strictness mode, optional
overflow key prefix, and the disable-backoff flag.  Per-level tunables are
functions of the level, mirroring the `opt` getters. -/
structure Options where
  compactionTableSize : Nat → Nat
  compactionExpandLimit : Nat → Nat
  compactionGPOverlaps : Nat → Nat
  compactionSourceLimit : Nat → Nat
  writeL0PauseTrigger : Nat
  strictCompaction : Bool
  overflowPrefix : UKey
  disableCompactionBackoff : Bool

/-- Modelled from the spec: a catalog edit (`sessionRecord`), "a batch of
additions/deletions of TableFiles per level, plus optional
compaction-pointer ... updates". -/
structure SessionRecord where
  compPtrs : List (Nat × IKey) := []
  addedTables : List (Nat × TFile) := []
  deletedTables : List (Nat × Nat) := []
  deriving DecidableEq, Repr

/-- Modelled from the spec: record a compaction-pointer update. -/
def SessionRecord.addCompPtr (r : SessionRecord) (level : Nat) (ik : IKey) : SessionRecord :=
  { r with compPtrs := r.compPtrs ++ [(level, ik)] }

/-- Modelled from the spec: record a table addition at a level. -/
def SessionRecord.addTableFile (r : SessionRecord) (level : Nat) (t : TFile) : SessionRecord :=
  { r with addedTables := r.addedTables ++ [(level, t)] }

/-- Modelled from the spec: record a table deletion at a level. -/
def SessionRecord.delTable (r : SessionRecord) (level : Nat) (num : Nat) : SessionRecord :=
  { r with deletedTables := r.deletedTables ++ [(level, num)] }

/-- Modelled from the spec: discard the pending added-table list
(`resetAddedTables`, used when a failed run discards its edit). -/
def SessionRecord.resetAddedTables (r : SessionRecord) : SessionRecord :=
  { r with addedTables := [] }

/- ### Input-set builder (`expand`, `reduce`, `trivial`) -/

/-- Whether a table's user-key range overlaps `[umin, umax]`. -/
def tOverlaps (t : TFile) (umin umax : UKey) : Bool :=
  uCmp t.imax.ukey umin ≠ .lt && uCmp t.imin.ukey umax ≠ .gt

/-- Modelled from the spec: `tFiles.getOverlaps` — the files of a level whose
user-key range overlaps the given range (§4.3: for level 0 the group absorbs
"any additional level-0 files whose range overlaps the initial group's
range"). -/
def getOverlaps (tf : List TFile) (umin umax : UKey) : List TFile :=
  tf.filter (fun t => tOverlaps t umin umax)

/-- One step of the range fold: widen the running range by a file's
`imin`/`imax`. -/
def rangeStep (r : IKey × IKey) (t : TFile) : IKey × IKey :=
  (if iCmp t.imin r.1 = .lt then t.imin else r.1,
   if iCmp t.imax r.2 = .gt then t.imax else r.2)

/-- Modelled from the spec: `tFiles.getRange` — the smallest internal-key
range covering every file of the group ("the key range they cover"). -/
def getRange (ts : List TFile) : IKey × IKey :=
  ts.foldl rangeStep
    (match ts with
     | [] => (⟨[], 0, .val⟩, ⟨[], 0, .val⟩)
     | t :: _ => (t.imin, t.imax))

/-- The growth attempt of `compaction.expand` (`session_compaction.go`
lines 249-265): try to grow the source group without changing the number of
level+1 files, under the expansion byte limit. -/
def expandGrow (vt0 vt1 : List TFile) (limit : Nat) (t0 t1 : List TFile) :
    List TFile × List TFile :=
  if t1.length > 0 then
    let a := getRange (t0 ++ t1)
    let exp0 := getOverlaps vt0 a.1.ukey a.2.ukey
    if exp0.length > t0.length ∧ tSize t1 + tSize exp0 < limit then
      let rx := getRange exp0
      let exp1 := getOverlaps vt1 rx.1.ukey rx.2.ukey
      if exp1.length = t1.length then (exp0, exp1) else (t0, t1)
    else (t0, t1)
  else (t0, t1)

/-- `compaction.expand`: absorb overlapping level-0 files, derive the
level+1 overlap group, attempt the growth step, and compute the grandparent
overlap group.  `c.imin`/`c.imax` receive the *source-group* range (updated
to the grown group's range when the growth is accepted), while the
grandparents are computed over the combined range, as in the source. -/
def Compaction.expand (o : Options) (c : Compaction) : Compaction :=
  let limit := o.compactionExpandLimit c.sourceLevel
  let vt0 := c.vLevels.getD c.sourceLevel []
  let vt1 := c.vLevels.getD (c.sourceLevel + 1) []
  let r0 := getRange c.levels0
  let t0 := if c.sourceLevel = 0 then getOverlaps vt0 r0.1.ukey r0.2.ukey else c.levels0
  let r1 := if c.sourceLevel = 0 ∧ t0.length ≠ c.levels0.length then getRange t0 else r0
  let t1 := getOverlaps vt1 r1.1.ukey r1.2.ukey
  let g := expandGrow vt0 vt1 limit t0 t1
  -- the growth is accepted exactly when the source group gained files,
  -- in which case `imin, imax = xmin, xmax`, the grown group's range
  let r2 := if g.1.length ≠ t0.length then getRange g.1 else r1
  let a := getRange (g.1 ++ g.2)
  let gp := getOverlaps (c.vLevels.getD (c.sourceLevel + 2) []) a.1.ukey a.2.ukey
  { c with levels0 := g.1, levels1 := g.2, gp := gp, imin := r2.1, imax := r2.2 }

/-- Seek of the merged source-level iterator, modelled on its key list in
iterator order: the first key `k ≥ target` (internal-key order) together
with its predecessor, i.e. the positions reached by `it.Seek(target)` and a
following `it.Prev()`.  `none` models `Seek` returning false. -/
def seekGE : List IKey → IKey → Option IKey → Option (IKey × Option IKey)
  | [], _, _ => none
  | k :: rest, target, prev =>
    if iCmp k target ≠ .lt then some (k, prev) else seekGE rest target (some k)

/-- The per-table check of `compaction.reduce`: the seek into the merged
source iterator lands strictly past the table's maximum user key, and the
preceding source key lies strictly before its minimum user key — hence no
source user key falls inside the table's range. -/
def tableSkippable (keys : List IKey) (t : TFile) : Bool :=
  match seekGE keys t.imin none with
  | some (k, some p) =>
    uCmp k.ukey t.imax.ukey = .gt && uCmp p.ukey t.imin.ukey = .lt
  | some (_, none) => false
  | none => false

/-- The ignore-or-skip decision of `compaction.reduce` for the table at
index `i` of the target group: the first, the last and small tables are
ignored; the others are moved to the skip list when `tableSkippable`
holds. -/
def reduceCond (keys : List IKey) (targetTableSize len : Nat) (i : Nat) (t : TFile) : Bool :=
  let ignore : Bool := i == 0 || i == len - 1 || decide (t.size < targetTableSize / 10)
  !ignore && tableSkippable keys t

/-- Loop of `compaction.reduce` over the target-level tables, carrying the
running index: returns the kept tables and the skip list, in iteration
order. -/
def reduceGo (keys : List IKey) (targetTableSize len : Nat) :
    List TFile → Nat → List TFile × List TFile
  | [], _ => ([], [])
  | t :: rest, i =>
    let r := reduceGo keys targetTableSize len rest (i + 1)
    if reduceCond keys targetTableSize len i t then (r.1, t :: r.2)
    else (t :: r.1, r.2)

/-- The split computed by `compaction.reduce`'s loop over the whole target
group. -/
def reduceSplit (keys : List IKey) (targetTableSize : Nat) (t1 : List TFile) :
    List TFile × List TFile :=
  reduceGo keys targetTableSize t1.length t1 0

/-- `compaction.reduce`: try to drop redundant target-level tables.  `keys`
models the key sequence of the merged source-level iterator (the table
contents are outside the examined sources; modelled from the spec: "a seek
into the merged source iterator"). -/
def Compaction.reduce (o : Options) (c : Compaction) (keys : List IKey) : Compaction :=
  if c.levels1.length ≤ 2 then c
  else
    let targetTableSize := o.compactionTableSize (c.sourceLevel + 1)
    let r := reduceSplit keys targetTableSize c.levels1
    if r.2.length > 0 then { c with levels1 := r.1, skips := r.2 } else c

/- ### Compaction construction and picking -/

/-- A `version`: per-level table lists plus the cached compaction score (the
float score is modelled as a rational), hottest level, and the optional
seek-triggered table. -/
structure Version where
  levels : List (List TFile)
  cScore : ℚ
  cLevel : Nat
  cSeek : Option (Nat × TFile)

/-- `newCompaction`: build the job descriptor, then `expand`, `reduce` and
`save`.  `sourceKeys` models the merged source-level iterator used by
`reduce`. -/
def newCompaction (o : Options) (v : Version) (sourceLevel : Nat) (t0 : List TFile)
    (typ : Nat) (sourceKeys : List IKey) : Compaction :=
  let c : Compaction :=
    { typ := typ
      sourceLevel := sourceLevel
      vLevels := v.levels
      levels0 := t0
      levels1 := []
      maxGPOverlaps := o.compactionGPOverlaps sourceLevel
      skips := []
      skipIndex := 0
      gp := []
      gpi := 0
      seenKey := false
      gpOverlappedBytes := 0
      imin := ⟨[], 0, .val⟩
      imax := ⟨[], 0, .val⟩
      tPtrs := List.replicate v.levels.length 0
      snapGPI := 0
      snapSeenKey := false
      snapGPOverlappedBytes := 0
      snapTPtrs := []
      snapSkipIndex := 0
      overflowed := false }
  ((c.expand o).reduce o sourceKeys).save

/-- `session.pickTablesSorted`: pick one file of a sorted (non-level-0)
level, preferring a file at the overflow-prefix boundary, then the first
file past the persisted compaction pointer, then the first file.  The
`sort.Search` binary searches are modelled as first-match scans (the lists
are sorted, so the first index satisfying the monotone predicate is the
same).  Returns the picked file and the `overflowed` flag; `none` models the
out-of-range index of an empty level. -/
def pickTablesSorted (oPrefix : UKey) (cptr : Option IKey) (tables : List TFile) :
    Option (TFile × Bool) :=
  let byPrefix : Option (TFile × Bool) :=
    if oPrefix.length > 0 then
      match tables.find? (fun t => decide (uCmp t.imin.ukey oPrefix ≠ .lt)) with
      | some t => if oPrefix.isPrefixOf t.imin.ukey then some (t, true) else none
      | none => none
    else none
  match byPrefix with
  | some r => some r
  | none =>
    match cptr with
    | some p =>
      match tables.find? (fun t => decide (iCmp t.imax p = .gt)) with
      | some t => some (t, false)
      | none => tables.head?.map (fun t => (t, false))
    | none => tables.head?.map (fun t => (t, false))

/-- `session.pickCompaction`: score-driven source selection (all-of-level-0
handled via the initial single file plus `expand`'s absorption), else the
cached seek-triggered table, else nothing.  `cptrs` are the session's
persisted per-level compaction pointers, `sourceKeys` the merged source
iterator for `reduce`. -/
def pickCompaction (o : Options) (cptrs : List (Option IKey)) (v : Version)
    (sourceKeys : List IKey) : Option Compaction :=
  if 1 ≤ v.cScore then
    let sourceLevel := v.cLevel
    let tables := v.levels.getD sourceLevel []
    if sourceLevel > 0 then
      match pickTablesSorted o.overflowPrefix (cptrs.getD sourceLevel (none : Option IKey)) tables with
      | some (t, ofl) =>
        some { newCompaction o v sourceLevel [t] nonLevel0Compaction sourceKeys with
                 overflowed := ofl }
      | none => none
    else
      match tables.head? with
      | some t => some (newCompaction o v 0 [t] level0Compaction sourceKeys)
      | none => none
  else
    match v.cSeek with
    | some (level, t) => some (newCompaction o v level [t] seekCompaction sourceKeys)
    | none => none

/- ### The trivial-move branch of `DB.tableCompaction` -/

/-- The catalog edit produced by `DB.tableCompaction` for a trivial
compaction (`db_compaction.go` lines 683-694): the compaction-pointer update
(unless overflowed), then delete the single source file at `sourceLevel` and
add the identical descriptor at `sourceLevel + 1`.  No output table is ever
written on this path — the edit is built purely from the existing
descriptor.  `none` models the impossible empty source group. -/
def tableMoveEdit (c : Compaction) : Option SessionRecord :=
  let rec0 : SessionRecord := {}
  let rec1 := if ¬c.overflowed then rec0.addCompPtr c.sourceLevel c.imax else rec0
  match c.levels0 with
  | t :: _ => some ((rec1.delTable c.sourceLevel t.num).addTableFile (c.sourceLevel + 1) t)
  | [] => none

/- ### Compaction executor (`tableCompactionBuilder.run`) -/

/-- The per-run configuration of `tableCompactionBuilder` read inside `run`:
the global minimum live sequence number, strict mode, and the configured
overflow key prefix. -/
structure RunCfg where
  minSeq : Nat
  strict : Bool
  oPrefix : UKey
  deriving Repr

/-- The mutable state of `run`'s key loop: the last-seen user key tracking
(`hasLastUkey`, `lastUkey`, `lastSeq`, `lastHasOPrefix`), the error/drop
counters, and the compaction's progress cursors. -/
structure RunState where
  hasLastUkey : Bool
  lastUkey : UKey
  lastSeq : Nat
  lastHasOPrefix : Bool
  kerrCnt : Nat
  dropCnt : Nat
  c : Compaction
  deriving Repr

/-- The loop state at the top of `run`: zero-valued locals and the restored
compaction cursors (`b.c.restore()`). -/
def runState0 (c : Compaction) : RunState :=
  { hasLastUkey := false
    lastUkey := []
    lastSeq := 0
    lastHasOPrefix := false
    kerrCnt := 0
    dropCnt := 0
    c := c.restore }

/-- An entry as appended to the buffered output (`bufferedIter.Append`):
the raw key and value, with the `canStop`/`shouldStop` table-boundary
flags. -/
structure OutEntry where
  key : RawKey
  value : List Nat
  canStop : Bool
  shouldStop : Bool
  deriving DecidableEq, Repr

/-- One iteration of `run`'s key loop (`db_compaction.go` lines 572-652).
Returns the appended output entry (`none` when the key is dropped) and the
new loop state, or the decode error in strict mode.  The buffered hand-off
to the writer goroutine does not change which entries are emitted and is not
modelled. -/
def runStep (cfg : RunCfg) (st : RunState) (e : Entry) :
    Except (List Nat) (Option OutEntry × RunState) :=
  match parseInternalKey e.key with
  | .ok ik =>
    let sb := st.c.shouldStopBefore ik
    let ss := sb.1
    let c1 := sb.2
    let isNew : Bool := !st.hasLastUkey || uCmp st.lastUkey ik.ukey != .eq
    let hasOPrefix : Bool := decide (cfg.oPrefix.length > 0) && cfg.oPrefix.isPrefixOf ik.ukey
    let shouldStop : Bool :=
      if isNew then ss || (st.hasLastUkey && hasOPrefix != st.lastHasOPrefix) else ss
    let canStop : Bool := isNew
    let st1 : RunState :=
      if isNew then
        { st with hasLastUkey := true, lastHasOPrefix := hasOPrefix,
                  lastUkey := ik.ukey, lastSeq := keyMaxSeq, c := c1 }
      else { st with c := c1 }
    if st1.lastSeq ≤ cfg.minSeq then
      -- dropped: a newer entry for the same user key was already emitted
      .ok (none, { st1 with lastSeq := ik.seq, dropCnt := st1.dropCnt + 1 })
    else if ik.kind = .del ∧ ik.seq ≤ cfg.minSeq then
      -- the base-level check runs (and advances the cursors) only here
      let bl := st1.c.baseLevelForKey st1.lastUkey
      let c2 := bl.2
      if bl.1 then
        .ok (none, { st1 with lastSeq := ik.seq, dropCnt := st1.dropCnt + 1, c := c2 })
      else
        .ok (some ⟨e.key, e.value, canStop, shouldStop⟩,
             { st1 with lastSeq := ik.seq, c := c2 })
    else
      .ok (some ⟨e.key, e.value, canStop, shouldStop⟩, { st1 with lastSeq := ik.seq })
  | .error kerr =>
    if cfg.strict then .error kerr
    else
      -- don't drop corrupted keys; reset the user-key tracking state
      .ok (some ⟨e.key, e.value, false, false⟩,
           { st with hasLastUkey := false, lastUkey := [], lastSeq := keyMaxSeq,
                     kerrCnt := st.kerrCnt + 1 })

/-- `run`'s key loop over the whole merged input, collecting the appended
output entries. -/
def runLoop (cfg : RunCfg) (st : RunState) :
    List Entry → Except (List Nat) (List OutEntry × RunState)
  | [] => .ok ([], st)
  | e :: rest =>
    match runStep cfg st e with
    | .error kerr => .error kerr
    | .ok (out, st') =>
      match runLoop cfg st' rest with
      | .error kerr => .error kerr
      | .ok (outs, stf) => .ok (out.toList ++ outs, stf)

/-- A full run attempt on a compaction: restore the cursors, then loop.
(`tableCompactionBuilder.run`, without the I/O pipeline.) -/
def tcbRun (cfg : RunCfg) (c : Compaction) (input : List Entry) :
    Except (List Nat) (List OutEntry × RunState) :=
  runLoop cfg (runState0 c) input

/- ### Output-table lifecycle and failure cleanup (`run`/`writeLoop`/`flushLoop`) -/

/-- Storage is modelled as the list of table-file numbers present on disk. -/
def storCreate (stor : List Nat) (num : Nat) : List Nat := stor ++ [num]

/-- `stor.Remove` of a table file. -/
def storRemove (stor : List Nat) (num : Nat) : List Nat := stor.filter (fun n => n ≠ num)

/-- Net effect of one output table's lifecycle during a run attempt:
either the writer creates it and `flushLoop` finishes it (file on disk,
descriptor appended to the edit's added-table list), or it is created but
still unfinished when the attempt stops and is dropped by the deferred
`tw.drop()` in `writeLoop`/`flushLoop`. -/
inductive TableOutcome where
  | finished (t : TFile)
  | droppedUnfinished (num : Nat)

/-- Fold the table lifecycles of one run attempt over storage and the
pending edit (`tops.create`, `tw.finish` + `rec.addTableFile` in
`flushLoop`, `tw.drop`). -/
def runBuildEffects (sourceLevel : Nat) (outs : List TableOutcome)
    (stor : List Nat) (rec : SessionRecord) : List Nat × SessionRecord :=
  outs.foldl
    (fun acc o =>
      match o with
      | .finished t => (storCreate acc.1 t.num, acc.2.addTableFile (sourceLevel + 1) t)
      | .droppedUnfinished n => (storRemove (storCreate acc.1 n) n, acc.2))
    (stor, rec)

/-- The deferred error cleanup of `tableCompactionBuilder.run`
(`db_compaction.go` lines 558-564): remove every added table from storage
and reset the edit's added-table list. -/
def runCleanup (stor : List Nat) (rec : SessionRecord) : List Nat × SessionRecord :=
  (rec.addedTables.foldl (fun s lt => storRemove s lt.2.num) stor,
   rec.resetAddedTables)

/-- One run attempt of the table-compaction builder, at the granularity of
its storage/edit effects: play the table lifecycles, then, if the attempt
failed at any stage, run the deferred cleanup before the error is
returned. -/
def runAttempt (sourceLevel : Nat) (outs : List TableOutcome) (failed : Bool)
    (stor : List Nat) (rec : SessionRecord) :
    Except Unit Unit × List Nat × SessionRecord :=
  let b := runBuildEffects sourceLevel outs stor rec
  if failed then (.error (), runCleanup b.1 b.2) else (.ok (), b.1, b.2)

/- ### Transaction/retry wrapper (`DB.compactionTransact`) -/

/-- `backoffMin = 1 * time.Second` in nanoseconds. -/
def backoffMin : Nat := 1000000000

/-- `backoffMax = 8 * time.Second` in nanoseconds. -/
def backoffMax : Nat := 8000000000

/-- `backoffMul = 2 * time.Second` in nanoseconds — a `time.Duration`, so
`backoff *= backoffMul` multiplies by `2·10⁹`, not by 2. -/
def backoffMul : Nat := 2000000000

/-- The wrapper's backoff state: current backoff duration and the highest
per-attempt work counter that has caused a reset. -/
structure TransactState where
  backoff : Nat
  lastCnt : Nat
  deriving DecidableEq, Repr

/-- Initial backoff state (`backoff = backoffMin`, `lastCnt = 0`). -/
def transactState0 : TransactState := ⟨backoffMin, 0⟩

/-- The backoff block of one failed iteration of `DB.compactionTransact`
(`db_compaction.go` lines 212-226): reset to the floor if the work counter
advanced, sleep the current backoff, then multiply-and-clamp it for the next
iteration.  Returns the slept duration and the next state. -/
def backoffStep (st : TransactState) (cnt : Nat) : Nat × TransactState :=
  let b := if cnt > st.lastCnt then backoffMin else st.backoff
  let lc := if cnt > st.lastCnt then cnt else st.lastCnt
  let b' :=
    if b < backoffMax then
      let m := b * backoffMul
      if m > backoffMax then backoffMax else m
    else b
  (b, ⟨b', lc⟩)

/-- Outcome of one `t.run` attempt inside the wrapper: whether it returned
an error, whether that error is of the corruption class, and the value of
its per-attempt work counter. -/
structure Attempt where
  err : Bool
  corrupted : Bool
  cnt : Nat
  deriving DecidableEq, Repr

/-- Result of driving `DB.compactionTransact` through a finite list of
attempt outcomes: the run succeeded and the wrapper returned, a corruption
error permanently halted it, or every listed attempt failed transiently and
the wrapper is still retrying.  Each constructor carries the backoff sleeps
performed. -/
inductive TransactResult where
  | committed (sleeps : List Nat)
  | halted (sleeps : List Nat)
  | retrying (sleeps : List Nat)
  deriving DecidableEq, Repr

/-- Prepend a sleep to a transact result. -/
def TransactResult.consSleep (d : Nat) : TransactResult → TransactResult
  | .committed s => .committed (d :: s)
  | .halted s => .halted (d :: s)
  | .retrying s => .retrying (d :: s)

/-- The retry loop of `DB.compactionTransact`, driven by a list of attempt
outcomes (shutdown paths are concurrency and are not modelled): return on
success, exit permanently on corruption, otherwise back off (unless
disabled) and retry — indefinitely, there is no retry bound. -/
def compactionTransact (o : Options) : List Attempt → TransactState → TransactResult
  | [], _ => .retrying []
  | a :: rest, st =>
    if a.err = false then .committed []
    else if a.corrupted then .halted []
    else if o.disableCompactionBackoff then compactionTransact o rest st
    else
      (compactionTransact o rest (backoffStep st a.cnt).2).consSleep
        (backoffStep st a.cnt).1

/-- An arbitrary mutation of a compaction's progress cursors (the only
fields a run attempt writes), leaving the snapshot and all other fields
alone; used to state the save/restore round-trip. -/
def mutCursors (c : Compaction) (g : Nat) (s : Bool) (bb : Nat) (t : List Nat)
    (si : Nat) : Compaction :=
  { c with gpi := g, seenKey := s, gpOverlappedBytes := bb, tPtrs := t, skipIndex := si }

/-- The file number allocated by an output-table lifecycle. -/
def outNum : TableOutcome → Nat
  | .finished t => t.num
  | .droppedUnfinished n => n

/-- The tables an attempt's lifecycles finished (and hence recorded in the
pending edit). -/
def finishedOf (outs : List TableOutcome) : List TFile :=
  outs.filterMap (fun o => match o with | .finished t => some t | .droppedUnfinished _ => none)

/- Concrete fixtures for the level-0 picker claim: a Version whose level 0
holds two files with disjoint user-key ranges. -/

/-- Default option values (`opt` defaults, spec §6 tunables). -/
def c4o : Options :=
  { compactionTableSize := fun _ => 2097152
    compactionExpandLimit := fun _ => 52428800
    compactionGPOverlaps := fun _ => 20971520
    compactionSourceLimit := fun _ => 1048576
    writeL0PauseTrigger := 12
    strictCompaction := false
    overflowPrefix := []
    disableCompactionBackoff := false }

/-- A level-0 file covering user keys `[0] .. [1]`. -/
def c4tA : TFile := ⟨1, 10, ⟨[0], 9, .val⟩, ⟨[1], 3, .val⟩⟩

/-- A level-0 file covering user keys `[5] .. [6]`, disjoint from `c4tA`. -/
def c4tB : TFile := ⟨2, 10, ⟨[5], 9, .val⟩, ⟨[6], 3, .val⟩⟩

/-- A Version with hottest level 0 at score ≥ 1 and the two disjoint
level-0 files. -/
def c4v : Version := ⟨[[c4tA, c4tB], [], []], 2, 0, none⟩

/- Concrete fixtures for the level-0 scenario claim: four overlapping
level-0 files holding entries for the single user key `[107]` with sequence
numbers 5, 4, 3, 2 of kinds put, put, del, put; the merged iterator yields
them in descending sequence order.  Two compaction configurations differ
only at level sourceLevel+2: one has a grandparent table covering the key,
the other has none. -/

/-- The scenario's user key. -/
def c5k : UKey := [107]

/-- The merged input of the four one-entry level-0 files, in iterator
order. -/
def c5input : List Entry :=
  [⟨.ok ⟨c5k, 5, .val⟩, [1]⟩,
   ⟨.ok ⟨c5k, 4, .val⟩, [2]⟩,
   ⟨.ok ⟨c5k, 3, .del⟩, []⟩,
   ⟨.ok ⟨c5k, 2, .val⟩, [3]⟩]

/-- The four overlapping level-0 files of the scenario. -/
def c5files : List TFile :=
  [⟨1, 10, ⟨c5k, 5, .val⟩, ⟨c5k, 5, .val⟩⟩,
   ⟨2, 10, ⟨c5k, 4, .val⟩, ⟨c5k, 4, .val⟩⟩,
   ⟨3, 10, ⟨c5k, 3, .del⟩, ⟨c5k, 3, .del⟩⟩,
   ⟨4, 10, ⟨c5k, 2, .val⟩, ⟨c5k, 2, .val⟩⟩]

/-- A level-(sourceLevel+2) table covering the scenario's user key. -/
def c5gpt : TFile := ⟨9, 100, ⟨[100], 9, .val⟩, ⟨[120], 1, .val⟩⟩

/-- The scenario compaction with a covering table at sourceLevel+2. -/
def c5cov : Compaction :=
  { typ := level0Compaction, sourceLevel := 0,
    vLevels := [c5files, [], [c5gpt]],
    levels0 := c5files, levels1 := [], maxGPOverlaps := 20971520,
    skips := [], skipIndex := 0, gp := [], gpi := 0, seenKey := false,
    gpOverlappedBytes := 0, imin := ⟨c5k, 5, .val⟩, imax := ⟨c5k, 2, .val⟩,
    tPtrs := [0, 0, 0], snapGPI := 0, snapSeenKey := false,
    snapGPOverlappedBytes := 0, snapTPtrs := [0, 0, 0], snapSkipIndex := 0,
    overflowed := false }

/-- The scenario compaction with no table at sourceLevel+2 or deeper. -/
def c5uncov : Compaction :=
  { c5cov with vLevels := [c5files, [], []] }

/- Concrete fixtures for the delete-marker claim: an input holding a put at
sequence 3 followed by a delete-marker at sequence 2 for the same user key,
with global minimum live sequence 10 and a grandparent table covering the
key. -/

/-- The delete-marker scenario's user key. -/
def c1k : UKey := [107]

/-- Input: a put (seq 3) then a delete-marker (seq 2) for the same key. -/
def c1input : List Entry :=
  [⟨.ok ⟨c1k, 3, .val⟩, [9]⟩, ⟨.ok ⟨c1k, 2, .del⟩, []⟩]

/-- A compaction whose Version has a table at sourceLevel+2 covering the
key. -/
def c1c : Compaction :=
  { typ := level0Compaction, sourceLevel := 0,
    vLevels := [[⟨1, 10, ⟨c1k, 3, .val⟩, ⟨c1k, 2, .del⟩⟩], [],
                [⟨9, 100, ⟨[100], 9, .val⟩, ⟨[120], 1, .val⟩⟩]],
    levels0 := [⟨1, 10, ⟨c1k, 3, .val⟩, ⟨c1k, 2, .del⟩⟩], levels1 := [],
    maxGPOverlaps := 20971520,
    skips := [], skipIndex := 0, gp := [], gpi := 0, seenKey := false,
    gpOverlappedBytes := 0, imin := ⟨c1k, 3, .val⟩, imax := ⟨c1k, 2, .del⟩,
    tPtrs := [0, 0, 0], snapGPI := 0, snapSeenKey := false,
    snapGPOverlappedBytes := 0, snapTPtrs := [0, 0, 0], snapSkipIndex := 0,
    overflowed := false }

/- Concrete fixtures for the reduce claim: a target group of four tables
and a sorted source-key list that skips the second table's range. -/

/-- Options with target table size 100 (so "small" means size < 10). -/
def c6o : Options :=
  { compactionTableSize := fun _ => 100
    compactionExpandLimit := fun _ => 52428800
    compactionGPOverlaps := fun _ => 20971520
    compactionSourceLimit := fun _ => 1048576
    writeL0PauseTrigger := 12
    strictCompaction := false
    overflowPrefix := []
    disableCompactionBackoff := false }

/-- The second target table, covering `[20]..[30]`: no source key falls in
its range, so `reduce` can skip it. -/
def c6g2 : TFile := ⟨12, 10, ⟨[20], 9, .val⟩, ⟨[30], 2, .val⟩⟩

/-- The target-level group of four tables. -/
def c6t1 : List TFile :=
  [⟨11, 10, ⟨[0], 9, .val⟩, ⟨[10], 2, .val⟩⟩,
   c6g2,
   ⟨13, 10, ⟨[40], 9, .val⟩, ⟨[50], 2, .val⟩⟩,
   ⟨14, 10, ⟨[60], 9, .val⟩, ⟨[70], 2, .val⟩⟩]

/-- The merged source-level keys: `[5]` and `[45]` — both outside
`c6g2`'s range. -/
def c6keys : List IKey := [⟨[5], 9, .val⟩, ⟨[45], 9, .val⟩]

/-- The compaction whose target group `reduce` trims. -/
def c6c : Compaction :=
  { typ := level0Compaction, sourceLevel := 0,
    vLevels := [[], c6t1, []],
    levels0 := [⟨1, 40, ⟨[5], 9, .val⟩, ⟨[45], 2, .val⟩⟩], levels1 := c6t1,
    maxGPOverlaps := 20971520,
    skips := [], skipIndex := 0, gp := [], gpi := 0, seenKey := false,
    gpOverlappedBytes := 0, imin := ⟨[5], 9, .val⟩, imax := ⟨[45], 2, .val⟩,
    tPtrs := [0, 0, 0], snapGPI := 0, snapSeenKey := false,
    snapGPOverlappedBytes := 0, snapTPtrs := [0, 0, 0], snapSkipIndex := 0,
    overflowed := false }

/-! ### Theorems and supporting lemmas -/

/- ### Lemmas about the comparers -/

theorem nCmp_eq_iff {a b : Nat} : nCmp a b = .eq ↔ a = b := by
  unfold nCmp
  split <;> rename_i h
  · exact ⟨fun h' => Ordering.noConfusion h', fun h' => absurd h' (by omega)⟩
  · split <;> rename_i h2
    · simp [h2]
    · exact ⟨fun h' => Ordering.noConfusion h', fun h' => absurd h' h2⟩

theorem nCmp_lt_iff {a b : Nat} : nCmp a b = .lt ↔ a < b := by
  unfold nCmp
  split <;> rename_i h
  · simp [h]
  · split <;> rename_i h2
    · exact ⟨fun h' => Ordering.noConfusion h', fun h' => absurd h' h⟩
    · exact ⟨fun h' => Ordering.noConfusion h', fun h' => absurd h' h⟩

theorem nCmp_gt_iff {a b : Nat} : nCmp a b = .gt ↔ b < a := by
  unfold nCmp
  split <;> rename_i h
  · exact ⟨fun h' => Ordering.noConfusion h', fun h' => absurd h' (by omega)⟩
  · split <;> rename_i h2
    · exact ⟨fun h' => Ordering.noConfusion h', fun h' => absurd h' (by omega)⟩
    · exact ⟨fun _ => by omega, fun _ => rfl⟩

theorem uCmp_eq_iff : ∀ {a b : UKey}, uCmp a b = .eq ↔ a = b := by
  intro a
  induction a with
  | nil => intro b; cases b <;> simp [uCmp]
  | cons x xs ih =>
    intro b
    cases b with
    | nil => simp [uCmp]
    | cons y ys =>
      simp only [uCmp]
      rcases h : nCmp x y with _ | _ | _
      · simp only [List.cons.injEq]
        constructor
        · intro h'; simp_all
        · rintro ⟨rfl, rfl⟩; rw [nCmp_eq_iff.mpr rfl] at h; cases h
      · simp only [List.cons.injEq]
        rw [ih]
        have := nCmp_eq_iff (a := x) (b := y)
        constructor
        · rintro rfl; exact ⟨nCmp_eq_iff.mp h, rfl⟩
        · rintro ⟨_, rfl⟩; rfl
      · simp only [List.cons.injEq]
        constructor
        · intro h'; simp_all
        · rintro ⟨rfl, rfl⟩; rw [nCmp_eq_iff.mpr rfl] at h; cases h

theorem uCmp_refl (a : UKey) : uCmp a a = .eq := uCmp_eq_iff.mpr rfl

theorem uCmp_gt_iff_swap : ∀ {a b : UKey}, uCmp a b = .gt ↔ uCmp b a = .lt := by
  intro a
  induction a with
  | nil => intro b; cases b <;> simp [uCmp]
  | cons x xs ih =>
    intro b
    cases b with
    | nil => simp [uCmp]
    | cons y ys =>
      simp only [uCmp]
      rcases hxy : nCmp x y with _ | _ | _
      · have hyx : nCmp y x = .gt := nCmp_gt_iff.mpr (nCmp_lt_iff.mp hxy)
        simp [hyx]
      · have hyx : nCmp y x = .eq := nCmp_eq_iff.mpr (nCmp_eq_iff.mp hxy).symm
        simp only [hyx]
        exact ih
      · have hyx : nCmp y x = .lt := nCmp_lt_iff.mpr (nCmp_gt_iff.mp hxy)
        simp [hyx]

theorem uCmp_le_trans : ∀ {a b c : UKey},
    uCmp a b ≠ .gt → uCmp b c ≠ .gt → uCmp a c ≠ .gt := by
  intro a
  induction a with
  | nil =>
    intro b c _ _
    cases c <;> simp [uCmp]
  | cons x xs ih =>
    intro b c hab hbc
    cases b with
    | nil => simp [uCmp] at hab
    | cons y ys =>
      cases c with
      | nil => simp [uCmp] at hbc
      | cons z zs =>
        simp only [uCmp] at hab hbc ⊢
        rcases hxy : nCmp x y with _ | _ | _ <;> simp only [hxy] at hab <;>
          rcases hyz : nCmp y z with _ | _ | _ <;> simp only [hyz] at hbc
        · have : nCmp x z = .lt := by
            rw [nCmp_lt_iff] at hxy hyz ⊢; omega
          simp [this]
        · have : nCmp x z = .lt := by
            rw [nCmp_lt_iff] at hxy ⊢; rw [nCmp_eq_iff] at hyz; omega
          simp [this]
        · exact absurd rfl hbc
        · have : nCmp x z = .lt := by
            rw [nCmp_eq_iff] at hxy; rw [nCmp_lt_iff] at hyz ⊢; omega
          simp [this]
        · have : nCmp x z = .eq := by
            rw [nCmp_eq_iff] at hxy hyz ⊢; omega
          simp only [this]
          exact ih hab hbc
        · exact absurd rfl hbc
        · exact absurd rfl hab
        · exact absurd rfl hab
        · exact absurd rfl hab

theorem uCmp_lt_of_le_of_lt : ∀ {a b c : UKey},
    uCmp a b ≠ .gt → uCmp b c = .lt → uCmp a c = .lt := by
  intro a
  induction a with
  | nil =>
    intro b c _ hbc
    cases c with
    | nil =>
      cases b with
      | nil => simp [uCmp] at hbc
      | cons y ys => simp [uCmp] at hbc
    | cons z zs => simp [uCmp]
  | cons x xs ih =>
    intro b c hab hbc
    cases b with
    | nil => simp [uCmp] at hab
    | cons y ys =>
      cases c with
      | nil => simp [uCmp] at hbc
      | cons z zs =>
        simp only [uCmp] at hab hbc ⊢
        rcases hxy : nCmp x y with _ | _ | _ <;> simp only [hxy] at hab <;>
          rcases hyz : nCmp y z with _ | _ | _ <;> simp only [hyz] at hbc
        · have : nCmp x z = .lt := by
            rw [nCmp_lt_iff] at hxy hyz ⊢; omega
          simp [this]
        · have : nCmp x z = .lt := by
            rw [nCmp_lt_iff] at hxy ⊢; rw [nCmp_eq_iff] at hyz; omega
          simp [this]
        · exact absurd hbc (by simp)
        · have : nCmp x z = .lt := by
            rw [nCmp_eq_iff] at hxy; rw [nCmp_lt_iff] at hyz ⊢; omega
          simp [this]
        · have : nCmp x z = .eq := by
            rw [nCmp_eq_iff] at hxy hyz ⊢; omega
          simp only [this]
          exact ih hab hbc
        · exact absurd hbc (by simp)
        · exact absurd rfl hab
        · exact absurd rfl hab
        · exact absurd rfl hab

theorem uCmp_lt_of_lt_of_le : ∀ {a b c : UKey},
    uCmp a b = .lt → uCmp b c ≠ .gt → uCmp a c = .lt := by
  intro a
  induction a with
  | nil =>
    intro b c hab hbc
    cases c with
    | nil =>
      cases b with
      | nil => simp [uCmp] at hab
      | cons y ys => simp [uCmp] at hbc
    | cons z zs => simp [uCmp]
  | cons x xs ih =>
    intro b c hab hbc
    cases b with
    | nil => simp [uCmp] at hab
    | cons y ys =>
      cases c with
      | nil => simp [uCmp] at hbc
      | cons z zs =>
        simp only [uCmp] at hab hbc ⊢
        rcases hxy : nCmp x y with _ | _ | _ <;> simp only [hxy] at hab <;>
          rcases hyz : nCmp y z with _ | _ | _ <;> simp only [hyz] at hbc
        · have : nCmp x z = .lt := by
            rw [nCmp_lt_iff] at hxy hyz ⊢; omega
          simp [this]
        · have : nCmp x z = .lt := by
            rw [nCmp_lt_iff] at hxy ⊢; rw [nCmp_eq_iff] at hyz; omega
          simp [this]
        · exact absurd rfl hbc
        · have : nCmp x z = .lt := by
            rw [nCmp_eq_iff] at hxy; rw [nCmp_lt_iff] at hyz ⊢; omega
          simp [this]
        · have : nCmp x z = .eq := by
            rw [nCmp_eq_iff] at hxy hyz ⊢; omega
          simp only [this]
          exact ih hab hbc
        · exact absurd rfl hbc
        · exact absurd hab (by simp)
        · exact absurd hab (by simp)
        · exact absurd hab (by simp)

/-- Projection of internal-key order to user-key order: if `a ≤ b` as
internal keys then `a.ukey ≤ b.ukey` bytewise. -/
theorem iCmp_le_ukey {a b : IKey} (h : iCmp a b ≠ .gt) :
    uCmp a.ukey b.ukey ≠ .gt := by
  unfold iCmp at h
  rcases hu : uCmp a.ukey b.ukey with _ | _ | _ <;> simp only [hu] at h <;> simp_all

theorem nCmp_ne_gt_iff {a b : Nat} : nCmp a b ≠ .gt ↔ a ≤ b := by
  unfold nCmp
  split <;> rename_i h
  · exact ⟨fun _ => by omega, fun _ hh => Ordering.noConfusion hh⟩
  · split <;> rename_i h2
    · exact ⟨fun _ => by omega, fun _ hh => Ordering.noConfusion hh⟩
    · exact ⟨fun hh => absurd rfl hh, fun hle => absurd (by omega : a = b) h2⟩

theorem iCmp_refl (a : IKey) : iCmp a a = .eq := by
  unfold iCmp
  rw [uCmp_refl, nCmp_eq_iff.mpr rfl]

/- ### Theorems -/

/-- C10: `restore()` after `save()` is a round-trip on the progress cursors:
whatever a run attempt did to `gpi`, `seenKey`, `gpOverlappedBytes`, `tPtrs`
and `skipIndex` after the save, `restore()` returns them exactly to their
values at the save; hence — the cursors being saved once when the compaction
is built (`newCompaction` ends in `save()`) and every run attempt beginning
with `restore()` — each retry of a failed run starts from identical cursor
state and recomputes the same decisions (`tcbRun` is a function of the
restored state). -/
theorem save_restore_roundtrip (c : Compaction) (g bb si : Nat) (s : Bool)
    (t : List Nat) (cfg : RunCfg) (input : List Entry)
    (o : Options) (v : Version) (sl : Nat) (t0 : List TFile) (typ : Nat)
    (keys : List IKey) :
    ((mutCursors c.save g s bb t si).restore.gpi = c.gpi ∧
     (mutCursors c.save g s bb t si).restore.seenKey = c.seenKey ∧
     (mutCursors c.save g s bb t si).restore.gpOverlappedBytes = c.gpOverlappedBytes ∧
     (mutCursors c.save g s bb t si).restore.tPtrs = c.tPtrs ∧
     (mutCursors c.save g s bb t si).restore.skipIndex = c.skipIndex) ∧
    tcbRun cfg (mutCursors c.save g s bb t si) input = tcbRun cfg c.save input ∧
    ((newCompaction o v sl t0 typ keys).snapGPI = (newCompaction o v sl t0 typ keys).gpi ∧
     (newCompaction o v sl t0 typ keys).snapSeenKey = (newCompaction o v sl t0 typ keys).seenKey ∧
     (newCompaction o v sl t0 typ keys).snapGPOverlappedBytes
        = (newCompaction o v sl t0 typ keys).gpOverlappedBytes ∧
     (newCompaction o v sl t0 typ keys).snapTPtrs = (newCompaction o v sl t0 typ keys).tPtrs ∧
     (newCompaction o v sl t0 typ keys).snapSkipIndex = (newCompaction o v sl t0 typ keys).skipIndex) := by
  refine ⟨⟨?_, ?_, ?_, ?_, ?_⟩, ?_, ?_, ?_, ?_, ?_, ?_⟩ <;>
    simp [mutCursors, Compaction.save, Compaction.restore, tcbRun, runState0,
      newCompaction]

/-- C3: `trivial()` is true exactly when the source group is a single file,
the computed target-level overlap group is empty, and the grandparent
overlap size is within the configured cap; and executing a trivial
compaction produces a catalog edit that deletes exactly that one file from
the source level and adds the identical descriptor at `sourceLevel + 1` —
the edit is built from the existing descriptor alone, no output table is
written. -/
theorem trivial_move_edit (c : Compaction) (t : TFile) :
    (c.trivial = true ↔
      c.levels0.length = 1 ∧ c.levels1 = [] ∧ tSize c.gp ≤ c.maxGPOverlaps) ∧
    (c.levels0 = [t] →
      ∃ r, tableMoveEdit c = some r ∧
        r.deletedTables = [(c.sourceLevel, t.num)] ∧
        r.addedTables = [(c.sourceLevel + 1, t)]) := by
  constructor
  · simp [Compaction.trivial, List.length_eq_zero, and_assoc]
  · intro h
    refine ⟨_, by rw [tableMoveEdit, h], ?_, ?_⟩ <;>
      · by_cases ho : c.overflowed <;>
          simp [ho, SessionRecord.delTable, SessionRecord.addTableFile,
            SessionRecord.addCompPtr]

/-- C3 witness: a concrete trivial compaction (single source file, empty
target group, no grandparent overlap): `trivial()` holds and the edit
deletes the file at the source level and re-adds the identical descriptor
one level down. -/
theorem trivial_move_edit_witness :
    (let t : TFile := ⟨7, 10, ⟨[3], 9, .val⟩, ⟨[4], 2, .val⟩⟩
     let c : Compaction :=
      { typ := 2, sourceLevel := 1, vLevels := [[], [t], [], []],
        levels0 := [t], levels1 := [], maxGPOverlaps := 100,
        skips := [], skipIndex := 0, gp := [], gpi := 0, seenKey := false,
        gpOverlappedBytes := 0, imin := ⟨[3], 9, .val⟩, imax := ⟨[4], 2, .val⟩,
        tPtrs := [0, 0, 0, 0], snapGPI := 0, snapSeenKey := false,
        snapGPOverlappedBytes := 0, snapTPtrs := [0, 0, 0, 0], snapSkipIndex := 0,
        overflowed := false }
     c.trivial = true ∧
       ∃ r, tableMoveEdit c = some r ∧
         r.deletedTables = [(1, 7)] ∧ r.addedTables = [(2, t)]) := by
  intro t c
  exact ⟨by decide, (trivial_move_edit c t).2 rfl⟩

/-- C7: the growth attempt of `expand()` accepts a grown source group only
when the re-derived level+1 overlap group has exactly as many files as
before and the combined byte size (existing level+1 group plus grown source
group) is strictly under the expansion limit — and when it accepts, the
groups become exactly the re-derived ones; if either condition fails (or the
source group did not actually grow), the original groups are kept
unchanged. -/
theorem expand_growth_guard (vt0 vt1 : List TFile) (limit : Nat)
    (t0 t1 exp0 exp1 : List TFile)
    (he0 : exp0 = getOverlaps vt0 (getRange (t0 ++ t1)).1.ukey (getRange (t0 ++ t1)).2.ukey)
    (he1 : exp1 = getOverlaps vt1 (getRange exp0).1.ukey (getRange exp0).2.ukey) :
    (expandGrow vt0 vt1 limit t0 t1 ≠ (t0, t1) →
      expandGrow vt0 vt1 limit t0 t1 = (exp0, exp1) ∧
        exp0.length > t0.length ∧
        exp1.length = t1.length ∧
        tSize t1 + tSize exp0 < limit) ∧
    (¬(exp1.length = t1.length ∧ tSize t1 + tSize exp0 < limit) →
      expandGrow vt0 vt1 limit t0 t1 = (t0, t1)) := by
  subst he1
  subst he0
  constructor
  · intro hne
    simp only [expandGrow] at hne ⊢
    split_ifs at hne ⊢ with h0 h1 h2
    · exact ⟨rfl, h1.1, h2, h1.2⟩
    · exact absurd rfl hne
    · exact absurd rfl hne
    · exact absurd rfl hne
  · intro hcond
    simp only [expandGrow]
    split_ifs with h0 h1 h2
    · exact absurd ⟨h2, h1.2⟩ hcond
    · rfl
    · rfl
    · rfl

/-- C7 witness: concrete instances exercising both directions of the growth
guard: a growth rejected because it would change the level+1 file count, and
an accepted growth. -/
theorem expand_growth_guard_witness :
    (let f1 : TFile := ⟨1, 10, ⟨[0], 9, .val⟩, ⟨[1], 2, .val⟩⟩
     let f2 : TFile := ⟨2, 10, ⟨[2], 9, .val⟩, ⟨[3], 2, .val⟩⟩
     let g1 : TFile := ⟨3, 10, ⟨[0], 9, .val⟩, ⟨[2], 2, .val⟩⟩
     let g2 : TFile := ⟨4, 10, ⟨[3], 9, .val⟩, ⟨[3], 2, .val⟩⟩
     expandGrow [f1, f2] [g1, g2] 1000 [f1] [g1] = ([f1], [g1])) := by
  intro f1 f2 g1 g2
  exact (expand_growth_guard [f1, f2] [g1, g2] 1000 [f1] [g1] _ _ rfl rfl).2 (by decide)

/-- C8: an input key whose internal-key decoding fails is, in non-strict
mode, appended to the output unchanged (same raw key and value, both
boundary flags false, never dropped) while the user-key tracking state is
reset (`hasLastUkey = false`, `lastSeq = keyMaxSeq`) so following entries
are not grouped under the previous user key and the compaction cursors are
untouched; in strict mode the run aborts returning the decode error. -/
theorem corrupt_key_passthrough (cfg : RunCfg) (st : RunState)
    (blob : List Nat) (v : List Nat) :
    (cfg.strict = false →
      runStep cfg st ⟨.bad blob, v⟩ =
        .ok (some ⟨.bad blob, v, false, false⟩,
             { st with hasLastUkey := false, lastUkey := [], lastSeq := keyMaxSeq,
                       kerrCnt := st.kerrCnt + 1 })) ∧
    (cfg.strict = true → runStep cfg st ⟨.bad blob, v⟩ = .error blob) := by
  constructor <;> intro h <;> simp [runStep, parseInternalKey, h]

/-- C8 witness: at a concrete corrupt entry, the non-strict run passes it
through unchanged with the tracking state reset, and the strict run returns
the decode error. -/
theorem corrupt_key_passthrough_witness :
    (let c : Compaction :=
      { typ := 1, sourceLevel := 0, vLevels := [[]],
        levels0 := [], levels1 := [], maxGPOverlaps := 10,
        skips := [], skipIndex := 0, gp := [], gpi := 0, seenKey := false,
        gpOverlappedBytes := 0, imin := ⟨[], 0, .val⟩, imax := ⟨[], 0, .val⟩,
        tPtrs := [0], snapGPI := 0, snapSeenKey := false,
        snapGPOverlappedBytes := 0, snapTPtrs := [0], snapSkipIndex := 0,
        overflowed := false }
     let st : RunState :=
      { hasLastUkey := true, lastUkey := [5], lastSeq := 9,
        lastHasOPrefix := false, kerrCnt := 0, dropCnt := 0, c := c }
     runStep ⟨4, false, []⟩ st ⟨.bad [255], [1]⟩ =
        .ok (some ⟨.bad [255], [1], false, false⟩,
             { st with hasLastUkey := false, lastUkey := [], lastSeq := keyMaxSeq,
                       kerrCnt := 1 }) ∧
       runStep ⟨4, true, []⟩ st ⟨.bad [255], [1]⟩ = .error [255]) := by
  intro c st
  exact ⟨(corrupt_key_passthrough ⟨4, false, []⟩ st [255] [1]).1 rfl,
         (corrupt_key_passthrough ⟨4, true, []⟩ st [255] [1]).2 rfl⟩

/-- C9 (amended): the wrapper's backoff is reset to the floor exactly when
the latest attempt's work counter strictly exceeds the highest previously
recorded one (which then becomes the new record); otherwise the current
backoff is slept; starting from the floor or the ceiling the slept duration
always stays between the two, and one unproductive attempt saturates the
next backoff at the ceiling (the multiplier is the constant `2·10⁹`);
transient non-corruption errors are retried indefinitely. -/
theorem backoff_reset_and_saturation :
    (∀ (st : TransactState) (cnt : Nat), cnt > st.lastCnt →
      (backoffStep st cnt).1 = backoffMin ∧ (backoffStep st cnt).2.lastCnt = cnt) ∧
    (∀ (st : TransactState) (cnt : Nat), ¬cnt > st.lastCnt →
      (backoffStep st cnt).1 = st.backoff ∧ (backoffStep st cnt).2.lastCnt = st.lastCnt) ∧
    (∀ (st : TransactState) (cnt : Nat),
      st.backoff = backoffMin ∨ st.backoff = backoffMax →
      (backoffMin ≤ (backoffStep st cnt).1 ∧ (backoffStep st cnt).1 ≤ backoffMax) ∧
      ((backoffStep st cnt).2.backoff = backoffMin ∨
       (backoffStep st cnt).2.backoff = backoffMax)) ∧
    (∀ (st : TransactState) (cnt : Nat), st.backoff = backoffMin →
      ¬cnt > st.lastCnt → (backoffStep st cnt).2.backoff = backoffMax) ∧
    (∀ (o : Options) (attempts : List Attempt) (st : TransactState),
      (∀ a ∈ attempts, a.err = true ∧ a.corrupted = false) →
      ∃ sleeps, compactionTransact o attempts st = .retrying sleeps) := by
  refine ⟨?_, ?_, ?_, ?_, ?_⟩
  · intro st cnt h
    simp [backoffStep, h]
  · intro st cnt h
    simp [backoffStep, h]
  · intro st cnt hb
    by_cases h : cnt > st.lastCnt <;> rcases hb with hb | hb <;>
      simp [backoffStep, h, hb, backoffMin, backoffMax, backoffMul]
  · intro st cnt hb h
    simp [backoffStep, h, hb, backoffMin, backoffMax, backoffMul]
  · intro o attempts
    induction attempts with
    | nil => exact fun st _ => ⟨[], rfl⟩
    | cons a rest ih =>
      intro st h
      have ha := h a (List.mem_cons_self a rest)
      have hrest : ∀ x ∈ rest, x.err = true ∧ x.corrupted = false :=
        fun x hx => h x (List.mem_cons_of_mem a hx)
      by_cases hd : o.disableCompactionBackoff
      · obtain ⟨sl, hs⟩ := ih st hrest
        exact ⟨sl, by simp [compactionTransact, ha.1, ha.2, hd, hs]⟩
      · obtain ⟨sl, hs⟩ := ih (backoffStep st a.cnt).2 hrest
        exact ⟨(backoffStep st a.cnt).1 :: sl,
          by simp [compactionTransact, ha.1, ha.2, hd, hs, TransactResult.consSleep]⟩

/-- C9 witness: concrete uses of the backoff properties — a progressing
attempt resets the sleep to the floor, an unproductive attempt at the floor
saturates the next backoff at the ceiling, and a single failing transient
attempt leaves the wrapper retrying. -/
theorem backoff_reset_and_saturation_witness :
    (backoffStep ⟨backoffMax, 0⟩ 5).1 = backoffMin ∧
    (backoffStep ⟨backoffMin, 7⟩ 7).2.backoff = backoffMax ∧
    ∃ sleeps,
      compactionTransact
        ⟨fun _ => 0, fun _ => 0, fun _ => 0, fun _ => 0, 0, false, [], false⟩
        [⟨true, false, 0⟩] transactState0 = .retrying sleeps :=
  ⟨(backoff_reset_and_saturation.1 ⟨backoffMax, 0⟩ 5 (by decide)).1,
   backoff_reset_and_saturation.2.2.2.1 ⟨backoffMin, 7⟩ 7 rfl (by decide),
   backoff_reset_and_saturation.2.2.2.2
     ⟨fun _ => 0, fun _ => 0, fun _ => 0, fun _ => 0, 0, false, [], false⟩
     [⟨true, false, 0⟩] transactState0 (by decide)⟩

/-- C9 counterexample: the backoff floor and ceiling are the fixed constants
1 s and 8 s — two option values differing in every recognized tunable yield
the identical sleep sequence — and that sequence jumps from the floor
directly to the ceiling (1 s, 8 s, 8 s) on consecutive unproductive
failures, because `backoff *= backoffMul` multiplies by the constant
duration `2·10⁹`; so the floor and ceiling are not configurable as the
claim states. -/
theorem backoff_constants_cex :
    (let o1 : Options := ⟨fun _ => 1, fun _ => 1, fun _ => 1, fun _ => 1, 1, true, [0], false⟩
     let o2 : Options := ⟨fun _ => 2, fun _ => 2, fun _ => 2, fun _ => 2, 2, false, [1], false⟩
     let failing : List Attempt := [⟨true, false, 0⟩, ⟨true, false, 0⟩, ⟨true, false, 0⟩]
     o1 ≠ o2 ∧
     compactionTransact o1 failing transactState0 =
       .retrying [backoffMin, backoffMax, backoffMax] ∧
     compactionTransact o2 failing transactState0 =
       .retrying [backoffMin, backoffMax, backoffMax] ∧
     backoffMin = 1000000000 ∧ backoffMax = 8000000000) := by
  intro o1 o2 failing
  exact ⟨fun h => absurd (congrArg Options.writeL0PauseTrigger h) (by decide),
         rfl, rfl, rfl, rfl⟩

theorem storRemove_eq_self {s : List Nat} {n : Nat} (h : n ∉ s) :
    storRemove s n = s := by
  unfold storRemove
  apply List.filter_eq_self.mpr
  intro x hx
  simp only [decide_eq_true_eq]
  exact fun hxn => h (hxn ▸ hx)

theorem foldl_storRemove (ns : List Nat) : ∀ s : List Nat,
    ns.foldl storRemove s = s.filter (fun x => decide (x ∉ ns)) := by
  induction ns with
  | nil =>
    intro s
    simp
  | cons n ns ih =>
    intro s
    simp only [List.foldl_cons]
    rw [ih]
    unfold storRemove
    rw [List.filter_filter]
    apply List.filter_congr
    intro x _
    simp only [List.mem_cons, not_or, decide_not, Bool.decide_and]
    rw [Bool.and_comm]

theorem runBuildEffects_spec (sl : Nat) : ∀ (outs : List TableOutcome)
    (stor : List Nat) (rec : SessionRecord),
    (∀ n ∈ outs.map outNum, n ∉ stor) → (outs.map outNum).Nodup →
    runBuildEffects sl outs stor rec =
      (stor ++ (finishedOf outs).map TFile.num,
       { rec with
          addedTables := rec.addedTables ++ (finishedOf outs).map (fun t => (sl + 1, t)) }) := by
  intro outs
  induction outs with
  | nil =>
    intro stor rec _ _
    simp [runBuildEffects, finishedOf]
  | cons o rest ih =>
    intro stor rec hfresh hnodup
    have hofresh : outNum o ∉ stor := hfresh _ (by simp)
    have hrfresh0 : ∀ n ∈ rest.map outNum, n ∉ stor :=
      fun n hn => hfresh n (by simp [hn])
    have honotrest : outNum o ∉ rest.map outNum := by
      have := hnodup
      simp only [List.map_cons, List.nodup_cons] at this
      exact this.1
    have hrnodup : (rest.map outNum).Nodup := by
      have := hnodup
      simp only [List.map_cons, List.nodup_cons] at this
      exact this.2
    cases o with
    | finished t =>
      simp only [outNum] at hofresh honotrest
      have step : runBuildEffects sl (TableOutcome.finished t :: rest) stor rec =
          runBuildEffects sl rest (storCreate stor t.num)
            (rec.addTableFile (sl + 1) t) := rfl
      rw [step, ih]
      · simp [finishedOf, storCreate, SessionRecord.addTableFile]
      · intro n hn
        simp only [storCreate, List.mem_append, List.mem_singleton]
        rintro (h | h)
        · exact hrfresh0 n hn h
        · exact honotrest (h ▸ hn)
      · exact hrnodup
    | droppedUnfinished m =>
      simp only [outNum] at hofresh
      have step : runBuildEffects sl (TableOutcome.droppedUnfinished m :: rest) stor rec =
          runBuildEffects sl rest (storRemove (storCreate stor m) m) rec := rfl
      have hrm : storRemove (storCreate stor m) m = stor := by
        unfold storRemove storCreate
        rw [List.filter_append]
        have h1 : stor.filter (fun n => decide (n ≠ m)) = stor := by
          apply List.filter_eq_self.mpr
          intro x hx
          simp only [decide_eq_true_eq]
          exact fun hxm => hofresh (hxm ▸ hx)
        have h2 : [m].filter (fun n => decide (n ≠ m)) = [] := by simp
        rw [h1, h2, List.append_nil]
      rw [step, hrm, ih _ _ hrfresh0 hrnodup]
      simp [finishedOf]

theorem finished_nums_sub (outs : List TableOutcome) :
    ∀ x ∈ (finishedOf outs).map TFile.num, x ∈ outs.map outNum := by
  intro x hx
  obtain ⟨t, ht, rfl⟩ := List.mem_map.mp hx
  obtain ⟨o, ho, hto⟩ := List.mem_filterMap.mp ht
  cases o with
  | finished t' =>
    simp only [Option.some.injEq] at hto
    subst hto
    exact List.mem_map.mpr ⟨_, ho, rfl⟩
  | droppedUnfinished m => simp [finishedOf] at hto

/-- C2: if a table-compaction run attempt fails at any stage, then after the
deferred cleanup every table file created during the attempt has been
deleted from storage (storage is exactly what it was before the attempt) and
the pending edit's added-table list is reset to empty, and this happens
before the error is returned; moreover the retry wrapper returns (allowing a
commit) only after an attempt that reported no error, so no catalog edit
from a failed run is ever committed. -/
theorem failed_run_cleanup :
    (∀ (sl : Nat) (outs : List TableOutcome) (stor : List Nat) (rec : SessionRecord),
      rec.addedTables = [] →
      (∀ n ∈ outs.map outNum, n ∉ stor) →
      (outs.map outNum).Nodup →
      runAttempt sl outs true stor rec =
        (.error (), stor, { rec with addedTables := [] })) ∧
    (∀ (o : Options) (attempts : List Attempt) (st : TransactState)
       (sleeps : List Nat),
      compactionTransact o attempts st = .committed sleeps →
      ∃ a ∈ attempts, a.err = false) := by
  constructor
  · intro sl outs stor rec hrec hfresh hnodup
    unfold runAttempt
    rw [runBuildEffects_spec sl outs stor rec hfresh hnodup]
    simp only [if_pos rfl]
    unfold runCleanup
    simp only [hrec, List.nil_append, SessionRecord.resetAddedTables]
    have hmap : ((finishedOf outs).map (fun t => ((sl + 1 : Nat), t))).foldl
          (fun s lt => storRemove s lt.2.num) (stor ++ (finishedOf outs).map TFile.num)
        = ((finishedOf outs).map TFile.num).foldl storRemove
            (stor ++ (finishedOf outs).map TFile.num) := by
      rw [List.foldl_map, List.foldl_map]
    rw [hmap, foldl_storRemove, List.filter_append]
    have h1 : stor.filter (fun x => decide (x ∉ (finishedOf outs).map TFile.num)) = stor := by
      apply List.filter_eq_self.mpr
      intro x hx
      simp only [decide_eq_true_eq]
      intro hmem
      exact hfresh x (finished_nums_sub outs x hmem) hx
    have h2 : ((finishedOf outs).map TFile.num).filter
          (fun x => decide (x ∉ (finishedOf outs).map TFile.num)) = [] := by
      rw [List.filter_eq_nil_iff]
      intro x hx
      simp [hx]
    rw [h1, h2, List.append_nil]
    simp
  · intro o attempts
    induction attempts with
    | nil =>
      intro st sleeps h
      rw [compactionTransact] at h
      exact absurd h (by simp)
    | cons a rest ih =>
      intro st sleeps h
      by_cases he : a.err = false
      · exact ⟨a, List.mem_cons_self a rest, he⟩
      · rw [compactionTransact, if_neg he] at h
        by_cases hc : a.corrupted = true
        · rw [if_pos hc] at h
          exact absurd h (by simp)
        · rw [if_neg hc] at h
          by_cases hd : o.disableCompactionBackoff
          · rw [if_pos hd] at h
            obtain ⟨x, hx, hxe⟩ := ih st sleeps h
            exact ⟨x, List.mem_cons_of_mem a hx, hxe⟩
          · rw [if_neg hd] at h
            rcases hr : compactionTransact o rest (backoffStep st a.cnt).2 with s | s | s <;>
              rw [hr] at h <;> simp only [TransactResult.consSleep] at h
            · obtain ⟨x, hx, hxe⟩ := ih _ _ hr
              exact ⟨x, List.mem_cons_of_mem a hx, hxe⟩
            · exact absurd h (by simp)
            · exact absurd h (by simp)

/-- C2 witness: a concrete failed attempt that finished two output tables
and dropped one partial table leaves storage exactly as before and an empty
added-table list; and a concrete committed wrapper run contains a successful
attempt. -/
theorem failed_run_cleanup_witness :
    (runAttempt 0
        [.finished ⟨5, 10, ⟨[1], 9, .val⟩, ⟨[2], 2, .val⟩⟩,
         .droppedUnfinished 6,
         .finished ⟨7, 11, ⟨[3], 9, .val⟩, ⟨[4], 2, .val⟩⟩]
        true [1, 2] {} =
      (.error (), [1, 2], ({} : SessionRecord))) ∧
    ∃ a ∈ [({ err := false, corrupted := false, cnt := 3 } : Attempt)], a.err = false := by
  constructor
  · have := failed_run_cleanup.1 0
      [.finished ⟨5, 10, ⟨[1], 9, .val⟩, ⟨[2], 2, .val⟩⟩,
       .droppedUnfinished 6,
       .finished ⟨7, 11, ⟨[3], 9, .val⟩, ⟨[4], 2, .val⟩⟩]
      [1, 2] {} rfl (by decide) (by decide)
    exact this
  · exact failed_run_cleanup.2
      ⟨fun _ => 0, fun _ => 0, fun _ => 0, fun _ => 0, 0, false, [], false⟩
      [{ err := false, corrupted := false, cnt := 3 }] transactState0 [] rfl

theorem iCmp_gt_iff_swap {a b : IKey} : iCmp a b = .gt ↔ iCmp b a = .lt := by
  unfold iCmp
  rcases hu : uCmp a.ukey b.ukey with _ | _ | _
  · have h2 : uCmp b.ukey a.ukey = .gt := uCmp_gt_iff_swap.mpr hu
    simp [hu, h2]
  · have h2 : uCmp b.ukey a.ukey = .eq := by
      rw [uCmp_eq_iff] at hu ⊢
      exact hu.symm
    simp only [hu, h2]
    rw [nCmp_gt_iff, nCmp_lt_iff]
  · have h2 : uCmp b.ukey a.ukey = .lt := uCmp_gt_iff_swap.mp hu
    simp [hu, h2]

theorem iCmp_le_of_not_lt {a b : IKey} (h : iCmp a b ≠ .lt) : iCmp b a ≠ .gt :=
  fun hg => h (iCmp_gt_iff_swap.mp hg)

theorem iCmp_le_trans {a b c : IKey} (hab : iCmp a b ≠ .gt)
    (hbc : iCmp b c ≠ .gt) : iCmp a c ≠ .gt := by
  unfold iCmp at hab hbc ⊢
  rcases h1 : uCmp a.ukey b.ukey with _ | _ | _ <;> simp only [h1] at hab <;>
    rcases h2 : uCmp b.ukey c.ukey with _ | _ | _ <;> simp only [h2] at hbc
  · rw [uCmp_lt_of_lt_of_le h1 (by simp [h2])]
    simp
  · rw [uCmp_eq_iff] at h2
    rw [h2] at h1
    rw [h1]
    simp
  · exact absurd rfl hbc
  · rw [uCmp_eq_iff] at h1
    rw [← h1] at h2
    rw [h2]
    simp
  · rw [uCmp_eq_iff] at h1 h2
    rw [h1, h2, uCmp_refl]
    dsimp only
    rw [nCmp_ne_gt_iff] at hab hbc ⊢
    omega
  · exact absurd rfl hbc
  · exact absurd rfl hab
  · exact absurd rfl hab
  · exact absurd rfl hab

theorem rangeStep_mono (r : IKey × IKey) (t : TFile) :
    iCmp (rangeStep r t).1 r.1 ≠ .gt ∧ iCmp r.2 (rangeStep r t).2 ≠ .gt := by
  unfold rangeStep
  dsimp only
  constructor
  · split <;> rename_i h
    · intro hg
      exact Ordering.noConfusion (h.symm.trans hg)
    · rw [iCmp_refl]
      simp
  · split <;> rename_i h
    · rw [iCmp_gt_iff_swap.mp h]
      simp
    · rw [iCmp_refl]
      simp

theorem rangeStep_bounds (r : IKey × IKey) (t : TFile) :
    iCmp (rangeStep r t).1 t.imin ≠ .gt ∧ iCmp t.imax (rangeStep r t).2 ≠ .gt := by
  unfold rangeStep
  dsimp only
  constructor
  · split <;> rename_i h
    · rw [iCmp_refl]
      simp
    · exact iCmp_le_of_not_lt h
  · split <;> rename_i h
    · rw [iCmp_refl]
      simp
    · exact h

theorem foldl_rangeStep_spec (l : List TFile) : ∀ (r : IKey × IKey),
    (iCmp (l.foldl rangeStep r).1 r.1 ≠ .gt ∧
     iCmp r.2 (l.foldl rangeStep r).2 ≠ .gt) ∧
    ∀ x ∈ l, iCmp (l.foldl rangeStep r).1 x.imin ≠ .gt ∧
      iCmp x.imax (l.foldl rangeStep r).2 ≠ .gt := by
  induction l with
  | nil =>
    intro r
    refine ⟨⟨?_, ?_⟩, by simp⟩ <;> simp [iCmp_refl]
  | cons t l ih =>
    intro r
    have hm := rangeStep_mono r t
    have hb := rangeStep_bounds r t
    have ihr := ih (rangeStep r t)
    refine ⟨⟨iCmp_le_trans ihr.1.1 hm.1, iCmp_le_trans hm.2 ihr.1.2⟩, ?_⟩
    intro x hx
    rcases List.mem_cons.mp hx with rfl | hx
    · exact ⟨iCmp_le_trans ihr.1.1 hb.1, iCmp_le_trans hb.2 ihr.1.2⟩
    · exact ihr.2 x hx

/-- Every file of a group lies inside the group's computed range. -/
theorem getRange_bounds (ts : List TFile) :
    ∀ x ∈ ts, iCmp (getRange ts).1 x.imin ≠ .gt ∧
      iCmp x.imax (getRange ts).2 ≠ .gt := by
  intro x hx
  unfold getRange
  cases ts with
  | nil => cases hx
  | cons t l => exact (foldl_rangeStep_spec (t :: l) (t.imin, t.imax)).2 x hx

theorem getRange_singleton (t : TFile) : getRange [t] = (t.imin, t.imax) := by
  simp [getRange, rangeStep, iCmp_refl]

theorem expandGrow_fst_cases (vt0 vt1 : List TFile) (limit : Nat)
    (t0 t1 : List TFile) :
    (expandGrow vt0 vt1 limit t0 t1).1 = t0 ∨
    (expandGrow vt0 vt1 limit t0 t1).1 =
      getOverlaps vt0 (getRange (t0 ++ t1)).1.ukey (getRange (t0 ++ t1)).2.ukey := by
  simp only [expandGrow]
  split_ifs <;> simp

theorem reduce_levels0 (o : Options) (c : Compaction) (keys : List IKey) :
    (c.reduce o keys).levels0 = c.levels0 := by
  unfold Compaction.reduce
  dsimp only
  split_ifs <;> rfl

theorem save_levels0 (c : Compaction) : c.save.levels0 = c.levels0 := rfl

/-- C4 counterexample: with two disjoint level-0 files, the picker's
compaction has a source group of just the first file — not all of level 0's
files as the claim states. -/
theorem pick_level0_not_all_files_cex :
    (pickCompaction c4o [] c4v []).map Compaction.levels0 = some [c4tA] ∧
    c4tB ∈ c4v.levels.getD 0 [] ∧ c4tB ∉ [c4tA] := by
  refine ⟨by decide, by decide, by decide⟩

/-- C4 (amended): when the picker selects level 0, the resulting source
group consists of level-0 files of the current Version and contains every
level-0 file whose user-key range overlaps the initially picked (first)
file's range; it is not in general all of level 0's files.  (No tightness
is claimed: the growth step may absorb further level-0 files.) -/
theorem pick_level0_source_group (o : Options) (cptrs : List (Option IKey))
    (v : Version) (keys : List IKey) (t : TFile) (rest : List TFile)
    (hs : 1 ≤ v.cScore) (hl : v.cLevel = 0)
    (h0 : v.levels.getD 0 [] = t :: rest)
    (hwf : uCmp t.imin.ukey t.imax.ukey ≠ .gt) :
    ∃ c, pickCompaction o cptrs v keys = some c ∧
      (∀ x ∈ c.levels0, x ∈ v.levels.getD 0 []) ∧
      (∀ x ∈ v.levels.getD 0 [],
        tOverlaps x t.imin.ukey t.imax.ukey = true → x ∈ c.levels0) := by
  have hpick : pickCompaction o cptrs v keys =
      some (newCompaction o v 0 [t] level0Compaction keys) := by
    have h0' : v.levels[0]?.getD [] = t :: rest := by
      simpa [List.getD] using h0
    simp [pickCompaction, hs, hl, h0']
  refine ⟨_, hpick, ?_⟩
  have hl0 : (newCompaction o v 0 [t] level0Compaction keys).levels0 =
      (({ typ := level0Compaction, sourceLevel := 0, vLevels := v.levels,
          levels0 := [t], levels1 := [],
          maxGPOverlaps := o.compactionGPOverlaps 0, skips := [], skipIndex := 0,
          gp := [], gpi := 0, seenKey := false, gpOverlappedBytes := 0,
          imin := ⟨[], 0, .val⟩, imax := ⟨[], 0, .val⟩,
          tPtrs := List.replicate v.levels.length 0, snapGPI := 0,
          snapSeenKey := false, snapGPOverlappedBytes := 0, snapTPtrs := [],
          snapSkipIndex := 0, overflowed := false } : Compaction).expand o).levels0 := by
    unfold newCompaction
    rw [save_levels0, reduce_levels0]
  have hexp : ∃ tt1,
      (({ typ := level0Compaction, sourceLevel := 0, vLevels := v.levels,
          levels0 := [t], levels1 := [],
          maxGPOverlaps := o.compactionGPOverlaps 0, skips := [], skipIndex := 0,
          gp := [], gpi := 0, seenKey := false, gpOverlappedBytes := 0,
          imin := ⟨[], 0, .val⟩, imax := ⟨[], 0, .val⟩,
          tPtrs := List.replicate v.levels.length 0, snapGPI := 0,
          snapSeenKey := false, snapGPOverlappedBytes := 0, snapTPtrs := [],
          snapSkipIndex := 0, overflowed := false } : Compaction).expand o).levels0 =
      (expandGrow (v.levels.getD 0 []) (v.levels.getD 1 [])
        (o.compactionExpandLimit 0)
        (getOverlaps (v.levels.getD 0 []) t.imin.ukey t.imax.ukey) tt1).1 :=
    ⟨_, by
      simp only [Compaction.expand, getRange_singleton, if_true, true_and,
        eq_self_iff_true, Nat.zero_add]
      rfl⟩
  obtain ⟨tt1, he⟩ := hexp
  rw [hl0, he]
  have htin : t ∈ getOverlaps (v.levels.getD 0 []) t.imin.ukey t.imax.ukey := by
    apply List.mem_filter.mpr
    refine ⟨by rw [h0]; exact List.mem_cons_self t rest, ?_⟩
    unfold tOverlaps
    simp only [Bool.and_eq_true, decide_eq_true_eq]
    exact ⟨fun hlt => hwf (uCmp_gt_iff_swap.mpr hlt), hwf⟩
  rcases expandGrow_fst_cases (v.levels.getD 0 []) (v.levels.getD 1 [])
      (o.compactionExpandLimit 0)
      (getOverlaps (v.levels.getD 0 []) t.imin.ukey t.imax.ukey) tt1 with hg | hg <;>
    rw [hg]
  · constructor
    · intro x hx
      exact (List.mem_filter.mp hx).1
    · intro x hx hov
      exact List.mem_filter.mpr ⟨hx, hov⟩
  · have hb := getRange_bounds
      (getOverlaps (v.levels.getD 0 []) t.imin.ukey t.imax.ukey ++ tt1) t
      (List.mem_append_left tt1 htin)
    have hbmin : uCmp (getRange (getOverlaps (v.levels.getD 0 []) t.imin.ukey
        t.imax.ukey ++ tt1)).1.ukey t.imin.ukey ≠ .gt := iCmp_le_ukey hb.1
    have hbmax : uCmp t.imax.ukey (getRange (getOverlaps (v.levels.getD 0 [])
        t.imin.ukey t.imax.ukey ++ tt1)).2.ukey ≠ .gt := iCmp_le_ukey hb.2
    constructor
    · intro x hx
      exact (List.mem_filter.mp hx).1
    · intro x hx hov
      apply List.mem_filter.mpr
      refine ⟨hx, ?_⟩
      unfold tOverlaps at hov ⊢
      simp only [Bool.and_eq_true, decide_eq_true_eq] at hov ⊢
      constructor
      · intro hlt
        exact hov.1 (uCmp_lt_of_lt_of_le hlt hbmin)
      · exact uCmp_le_trans hov.2 hbmax

/-- C4 witness: a Version whose two level-0 files overlap the first file's
range: the picked source group contains both. -/
theorem pick_level0_source_group_witness :
    (let tA : TFile := ⟨1, 10, ⟨[0], 9, .val⟩, ⟨[4], 3, .val⟩⟩
     let tB : TFile := ⟨2, 10, ⟨[2], 9, .val⟩, ⟨[6], 3, .val⟩⟩
     let v : Version := ⟨[[tA, tB], [], []], 2, 0, none⟩
     ∃ c, pickCompaction c4o [] v [] = some c ∧
       (∀ x ∈ c.levels0, x ∈ v.levels.getD 0 []) ∧
       (∀ x ∈ v.levels.getD 0 [],
         tOverlaps x tA.imin.ukey tA.imax.ukey = true → x ∈ c.levels0)) := by
  intro tA tB v
  exact pick_level0_source_group c4o [] v [] tA [tB] (by norm_num) rfl rfl (by decide)

/-- C5 counterexample: in the spec's scenario (sequences 5,4,3,2 of kinds
put,put,del,put for one user key, global minimum live sequence 4), the
executor's output contains the sequence-4 put as well — not only the
sequence-5 put: with minSeq = 4 the rule `lastSeq <= minSeq` fires only from
the third entry on, so seq 5 and seq 4 survive and seq 3 (del) and seq 2
are dropped. -/
theorem level0_scenario_cex :
    (tcbRun ⟨4, false, []⟩ c5cov c5input).map
        (fun r => (r.1.map OutEntry.key, r.2.dropCnt)) =
      .ok ([.ok ⟨c5k, 5, .val⟩, .ok ⟨c5k, 4, .val⟩], 2) ∧
    (RawKey.ok ⟨c5k, 4, .val⟩) ≠ (RawKey.ok ⟨c5k, 5, .val⟩) :=
  ⟨rfl, by decide⟩

/-- C5 (amended): in the scenario, exactly the sequence-5 and sequence-4
puts survive and the sequence-3 delete and sequence-2 put are dropped —
and this is independent of whether a table at level ≥ sourceLevel+2 covers
the key (the two configurations genuinely differ on the base-level check),
because both drops happen through the superseded-entry rule, which never
consults the per-level cursors. -/
theorem level0_scenario_amended :
    (c5cov.baseLevelForKey c5k).1 = false ∧
    (c5uncov.baseLevelForKey c5k).1 = true ∧
    (tcbRun ⟨4, false, []⟩ c5cov c5input).map
        (fun r => (r.1.map OutEntry.key, r.2.dropCnt)) =
      .ok ([.ok ⟨c5k, 5, .val⟩, .ok ⟨c5k, 4, .val⟩], 2) ∧
    (tcbRun ⟨4, false, []⟩ c5uncov c5input).map
        (fun r => (r.1.map OutEntry.key, r.2.dropCnt)) =
      .ok ([.ok ⟨c5k, 5, .val⟩, .ok ⟨c5k, 4, .val⟩], 2) :=
  ⟨by decide, by decide, rfl, rfl⟩

/-- `shouldStopBefore` only moves the grandparent/skip cursors, so it never
changes the outcome of the base-level check. -/
theorem baseLevelForKey_after_shouldStopBefore (c : Compaction) (ik : IKey)
    (u : UKey) :
    ((c.shouldStopBefore ik).2.baseLevelForKey u).1 = (c.baseLevelForKey u).1 := rfl

/-- C1 counterexample: the input holds a delete-marker (seq 2) for a user
key covered by a table at sourceLevel+2, yet the marker is dropped (the
output holds only the seq-3 put): it was superseded by the newer put whose
sequence is ≤ the minimum live sequence, a drop path that never consults
deeper levels — contradicting the claim that such a marker is always
retained. -/
theorem del_marker_cex :
    (tcbRun ⟨10, false, []⟩ c1c c1input).map (fun r => r.1.map OutEntry.key) =
      .ok [.ok ⟨c1k, 3, .val⟩] ∧
    (c1c.baseLevelForKey c1k).1 = false ∧
    (RawKey.ok ⟨c1k, 2, .del⟩) ∉ [RawKey.ok ⟨c1k, 3, .val⟩] :=
  ⟨rfl, by decide, by decide⟩

/-- C1 (amended): a delete-marker is dropped only when (a) it is superseded —
the previously seen entry for the same user key (`keyMaxSeq` when there is
none) already had sequence ≤ the global minimum live sequence — or (b) its
own sequence is ≤ the global minimum live sequence and the per-level cursor
scan finds no covering table at any level ≥ sourceLevel+2; in particular a
delete-marker that opens a new user key whose key is covered at
sourceLevel+2 or deeper is always retained, with its key and value
unchanged. -/
theorem del_marker_drop_only_if (cfg : RunCfg) (st : RunState) (u : UKey)
    (sq : Nat) (v : List Nat) (out : Option OutEntry) (st' : RunState)
    (h : runStep cfg st ⟨.ok ⟨u, sq, .del⟩, v⟩ = .ok (out, st')) :
    (out = none →
      (if st.hasLastUkey = true ∧ uCmp st.lastUkey u = .eq
       then st.lastSeq else keyMaxSeq) ≤ cfg.minSeq ∨
      (sq ≤ cfg.minSeq ∧ (st.c.baseLevelForKey u).1 = true)) ∧
    (cfg.minSeq < keyMaxSeq →
      (st.hasLastUkey = false ∨ uCmp st.lastUkey u ≠ .eq) →
      (st.c.baseLevelForKey u).1 = false →
      ∃ oe, out = some oe ∧ oe.key = .ok ⟨u, sq, .del⟩ ∧ oe.value = v) := by
  by_cases hb : st.hasLastUkey = true ∧ uCmp st.lastUkey u = Ordering.eq
  · have hbnew : (!st.hasLastUkey || (uCmp st.lastUkey u != Ordering.eq)) = false := by
      rw [hb.1, hb.2]
      decide
    have hlu : st.lastUkey = u := uCmp_eq_iff.mp hb.2
    have hvac : ∀ P : Prop,
        (st.hasLastUkey = false ∨ uCmp st.lastUkey u ≠ .eq) → P := by
      intro P hne
      rcases hne with hne | hne
      · rw [hb.1] at hne
        cases hne
      · exact absurd hb.2 hne
    simp only [runStep, parseInternalKey, hbnew, Bool.false_eq_true, if_false] at h
    split_ifs at h with h1 h2 h3 <;>
      simp only [Except.ok.injEq, Prod.mk.injEq] at h
    · refine ⟨fun _ => ?_, fun _ hne _ => hvac _ hne⟩
      left
      rw [if_pos hb]
      exact h1
    · refine ⟨fun _ => ?_, fun _ hne _ => hvac _ hne⟩
      right
      refine ⟨by simpa using h2.2, ?_⟩
      have h3' := h3
      rw [baseLevelForKey_after_shouldStopBefore] at h3'
      rw [hlu] at h3'
      exact h3'
    · refine ⟨fun hc => ?_, fun _ hne _ => hvac _ hne⟩
      rw [← h.1] at hc
      cases hc
    · refine ⟨fun hc => ?_, fun _ hne _ => hvac _ hne⟩
      rw [← h.1] at hc
      cases hc
  · have hbnew : (!st.hasLastUkey || (uCmp st.lastUkey u != Ordering.eq)) = true := by
      rcases hu : uCmp st.lastUkey u with _ | _ | _
      · rw [Bool.or_eq_true]
        exact Or.inr (by decide)
      · rw [not_and_or] at hb
        rcases hb with hbe | hbe
        · simp [Bool.not_eq_true] at hbe
          simp [hbe]
        · exact absurd hu hbe
      · rw [Bool.or_eq_true]
        exact Or.inr (by decide)
    simp only [runStep, parseInternalKey, hbnew, if_true] at h
    split_ifs at h with h1 h2 h3 <;>
      simp only [Except.ok.injEq, Prod.mk.injEq] at h
    · refine ⟨fun _ => ?_, fun hmin _ _ => absurd h1 (by omega)⟩
      left
      rw [if_neg hb]
      exact h1
    · constructor
      · intro _
        right
        refine ⟨by simpa using h2.2, ?_⟩
        have h3' := h3
        rw [baseLevelForKey_after_shouldStopBefore] at h3'
        exact h3'
      · intro _ _ hbl
        have h3' := h3
        rw [baseLevelForKey_after_shouldStopBefore] at h3'
        rw [hbl] at h3'
        cases h3'
    · refine ⟨fun hc => ?_, fun _ _ _ => ?_⟩
      · rw [← h.1] at hc
        cases hc
      · exact ⟨_, h.1.symm, rfl, rfl⟩
    · refine ⟨fun hc => ?_, fun _ _ _ => ?_⟩
      · rw [← h.1] at hc
        cases hc
      · exact ⟨_, h.1.symm, rfl, rfl⟩

/-- C1 amended witness: at a concrete first-occurrence delete-marker whose
user key is covered at sourceLevel+2 (with the minimum live sequence above
its sequence), the step retains the marker unchanged. -/
theorem del_marker_drop_only_if_witness :
    ∃ oe out st2,
      runStep ⟨10, false, []⟩ ⟨false, [], 0, false, 0, 0, c1c⟩
          ⟨.ok ⟨c1k, 2, .del⟩, []⟩ = .ok (out, st2) ∧
        out = some oe ∧ oe.key = .ok ⟨c1k, 2, .del⟩ ∧ oe.value = [] := by
  obtain ⟨oe, h1, h2, h3⟩ :=
    (del_marker_drop_only_if ⟨10, false, []⟩ ⟨false, [], 0, false, 0, 0, c1c⟩
        c1k 2 [] _ _ rfl).2
      (by decide) (Or.inl rfl) (by decide)
  exact ⟨oe, _, _, rfl, h1, h2, h3⟩

theorem seekGE_split : ∀ (keys : List IKey) (target : IKey) (prev : Option IKey)
    (res : IKey × Option IKey), seekGE keys target prev = some res →
    ∃ pre post, keys = pre ++ res.1 :: post ∧
      iCmp res.1 target ≠ .lt ∧
      (∀ k ∈ pre, iCmp k target = .lt) ∧
      ((pre = [] ∧ res.2 = prev) ∨ ∃ p, pre.getLast? = some p ∧ res.2 = some p) := by
  intro keys
  induction keys with
  | nil =>
    intro target prev res h
    cases h
  | cons k rest ih =>
    intro target prev res h
    rw [seekGE] at h
    split_ifs at h with hk
    · obtain rfl : (k, prev) = res := by
        simpa using h
      exact ⟨[], rest, rfl, hk, by simp, Or.inl ⟨rfl, rfl⟩⟩
    · rw [not_not] at hk
      obtain ⟨pre', post', heq, hres, hpre', hlast⟩ := ih target (some k) res h
      refine ⟨k :: pre', post', by simp [heq], hres, ?_, ?_⟩
      · intro x hx
        rcases List.mem_cons.mp hx with rfl | hx
        · exact hk
        · exact hpre' x hx
      · rcases hlast with ⟨rfl, hr2⟩ | ⟨p, hp, hr2⟩
        · exact Or.inr ⟨k, rfl, hr2⟩
        · refine Or.inr ⟨p, ?_, hr2⟩
          cases pre' with
          | nil => cases hp
          | cons b l => rw [List.getLast?_cons_cons]; exact hp

theorem skippable_no_key_in_range (keys : List IKey) (t : TFile)
    (hsorted : List.Pairwise (fun a b => iCmp a b ≠ .gt) keys)
    (hskip : tableSkippable keys t = true) :
    ∀ k ∈ keys, ¬(uCmp k.ukey t.imin.ukey ≠ .lt ∧ uCmp k.ukey t.imax.ukey ≠ .gt) := by
  unfold tableSkippable at hskip
  rcases hseek : seekGE keys t.imin none with _ | ⟨f, op⟩
  · rw [hseek] at hskip
    cases hskip
  · rw [hseek] at hskip
    cases op with
    | none => cases hskip
    | some p =>
      simp only [Bool.and_eq_true, decide_eq_true_eq] at hskip
      obtain ⟨hf, hp⟩ := hskip
      obtain ⟨pre, post, heq, _, hpre, hlast⟩ := seekGE_split keys t.imin none (f, p) hseek
      rcases hlast with ⟨_, hr2⟩ | ⟨p', hp', hr2⟩
      · cases hr2
      · obtain rfl : p = p' := by
          simpa using hr2
        obtain ⟨pre0, rfl⟩ : ∃ l, pre = l ++ [p] := by
          rcases List.getLast?_eq_some_iff.mp hp' with ⟨l, hl⟩
          exact ⟨l, hl⟩
        subst heq
        intro k hk hin
        have hprelast : ∀ x ∈ pre0, iCmp x p ≠ .gt := by
          have h1 := (List.pairwise_append.mp hsorted).1
          have h2 := List.pairwise_append.mp h1
          intro x hx
          exact h2.2.2 x hx p (by simp)
        rcases List.mem_append.mp hk with hk | hk
        · -- k is before the seek position: its user key is below the table's min
          have hklt : uCmp k.ukey t.imin.ukey = .lt := by
            rcases List.mem_append.mp hk with hk0 | hkp
            · exact uCmp_lt_of_le_of_lt (iCmp_le_ukey (hprelast k hk0)) hp
            · obtain rfl : k = p := by simpa using hkp
              exact hp
          exact hin.1 hklt
        · -- k is at or after the seek position: its user key is above the max
          have hfk : uCmp f.ukey k.ukey ≠ .gt := by
            rcases List.mem_cons.mp hk with rfl | hk
            · rw [uCmp_refl]
              simp
            · have h2 := (List.pairwise_append.mp hsorted).2.1
              exact iCmp_le_ukey ((List.pairwise_cons.mp h2).1 k hk)
          have : uCmp k.ukey t.imax.ukey = .gt := by
            rw [uCmp_gt_iff_swap] at hf ⊢
            exact uCmp_lt_of_lt_of_le hf hfk
          exact hin.2 this

theorem reduceCond_true {keys : List IKey} {ts len j : Nat} {t : TFile}
    (h : reduceCond keys ts len j t = true) :
    j ≠ 0 ∧ j ≠ len - 1 ∧ ¬(t.size < ts / 10) ∧ tableSkippable keys t = true := by
  unfold reduceCond at h
  simp only [Bool.and_eq_true, Bool.not_eq_true'] at h
  obtain ⟨hig, hsk⟩ := h
  simp only [Bool.or_eq_false_iff, beq_eq_false_iff_ne, ne_eq,
    decide_eq_false_iff_not] at hig
  exact ⟨hig.1.1, hig.1.2, hig.2, hsk⟩

theorem reduceGo_mem (keys : List IKey) (ts len : Nat) :
    ∀ (l : List TFile) (i : Nat) (t : TFile), t ∈ l →
      t ∈ (reduceGo keys ts len l i).1 ∨ t ∈ (reduceGo keys ts len l i).2 := by
  intro l
  induction l with
  | nil =>
    intro i t ht
    cases ht
  | cons hd tl ih =>
    intro i t ht
    rw [reduceGo]
    rcases List.mem_cons.mp ht with rfl | ht
    · split_ifs with hc
      · exact Or.inr (List.mem_cons_self _ _)
      · exact Or.inl (List.mem_cons_self _ _)
    · rcases ih (i + 1) t ht with hk | hs
      · split_ifs with hc
        · exact Or.inl hk
        · exact Or.inl (List.mem_cons_of_mem hd hk)
      · split_ifs with hc
        · exact Or.inr (List.mem_cons_of_mem hd hs)
        · exact Or.inr hs

theorem reduceGo_skips_spec (keys : List IKey) (ts len : Nat) :
    ∀ (l : List TFile) (i : Nat) (t : TFile),
      t ∈ (reduceGo keys ts len l i).2 →
      ∃ j, l.get? j = some t ∧ reduceCond keys ts len (i + j) t = true := by
  intro l
  induction l with
  | nil =>
    intro i t ht
    rw [reduceGo] at ht
    cases ht
  | cons hd tl ih =>
    intro i t ht
    rw [reduceGo] at ht
    split_ifs at ht with hc
    · rcases List.mem_cons.mp ht with rfl | ht
      · exact ⟨0, rfl, by simpa using hc⟩
      · obtain ⟨j, hj, hcj⟩ := ih (i + 1) t ht
        refine ⟨j + 1, by simpa using hj, ?_⟩
        have harith : i + (j + 1) = i + 1 + j := by omega
        rw [harith]
        exact hcj
    · obtain ⟨j, hj, hcj⟩ := ih (i + 1) t ht
      refine ⟨j + 1, by simpa using hj, ?_⟩
      have harith : i + (j + 1) = i + 1 + j := by omega
      rw [harith]
      exact hcj

/-- C6: `reduce()` never removes the first or the last table of the
target-level group, nor one whose size is below 1/10 of the configured
target table size; every table it removes is recorded in the compaction's
skip list (nothing disappears: each original table is either kept or
skipped), and — provided the merged source iterator's keys are sorted — a
table is removed only when no source user key falls within its key
range. -/
theorem reduce_spec (o : Options) (c : Compaction) (keys : List IKey)
    (hsorted : List.Pairwise (fun a b => iCmp a b ≠ .gt) keys)
    (hnodup : c.levels1.Nodup) (hskips0 : c.skips = []) :
    (∀ t ∈ c.levels1, t ∈ (c.reduce o keys).levels1 ∨ t ∈ (c.reduce o keys).skips) ∧
    (∀ t ∈ (c.reduce o keys).skips,
      t ∈ c.levels1 ∧
      c.levels1.head? ≠ some t ∧
      c.levels1.getLast? ≠ some t ∧
      ¬(t.size < o.compactionTableSize (c.sourceLevel + 1) / 10) ∧
      ∀ k ∈ keys, ¬(uCmp k.ukey t.imin.ukey ≠ .lt ∧ uCmp k.ukey t.imax.ukey ≠ .gt)) := by
  unfold Compaction.reduce
  dsimp only
  split_ifs with hlen hpos
  · refine ⟨fun t ht => Or.inl ht, fun t ht => ?_⟩
    rw [hskips0] at ht
    cases ht
  · constructor
    · intro t ht
      have h := reduceGo_mem keys (o.compactionTableSize (c.sourceLevel + 1))
        c.levels1.length c.levels1 0 t ht
      simpa [reduceSplit] using h
    · intro t ht
      obtain ⟨j, hj, hcj⟩ := reduceGo_skips_spec keys
        (o.compactionTableSize (c.sourceLevel + 1)) c.levels1.length
        c.levels1 0 t (by simpa [reduceSplit] using ht)
      rw [Nat.zero_add] at hcj
      obtain ⟨hj0, hjl, hsmall, hskip⟩ := reduceCond_true hcj
      have hjlt : j < c.levels1.length := by
        rcases List.get?_eq_some.mp hj with ⟨hh, _⟩
        exact hh
      have hmem : t ∈ c.levels1 := by
        rcases List.get?_eq_some.mp hj with ⟨hh, hg⟩
        exact hg ▸ List.get_mem c.levels1 j hh
      refine ⟨hmem, ?_, ?_, hsmall,
        skippable_no_key_in_range keys t hsorted hskip⟩
      · intro hhead
        have h0 : c.levels1.get? 0 = some t := by
          cases hl : c.levels1 with
          | nil => rw [hl] at hhead; cases hhead
          | cons a l =>
            rw [hl] at hhead
            simp only [List.head?_cons, Option.some.injEq] at hhead
            simp [hhead]
        exact hj0 (List.get?_inj hjlt hnodup (hj.trans h0.symm))
      · intro hlast
        have h0 : c.levels1.get? (c.levels1.length - 1) = some t := by
          rw [← List.getLast?_eq_get?]
          exact hlast
        exact hjl (List.get?_inj hjlt hnodup (hj.trans h0.symm))
  · refine ⟨fun t ht => Or.inl ht, fun t ht => ?_⟩
    rw [hskips0] at ht
    cases ht

/-- C6 witness: on the concrete four-table target group with sorted source
keys `[5]`, `[45]`, `reduce` skips exactly the second table, and every
skipped table satisfies the guarantees. -/
theorem reduce_spec_witness :
    (c6c.reduce c6o c6keys).skips = [c6g2] ∧
    (∀ t ∈ (c6c.reduce c6o c6keys).skips,
      t ∈ c6c.levels1 ∧
      c6c.levels1.head? ≠ some t ∧
      c6c.levels1.getLast? ≠ some t ∧
      ¬(t.size < c6o.compactionTableSize (c6c.sourceLevel + 1) / 10) ∧
      ∀ k ∈ c6keys, ¬(uCmp k.ukey t.imin.ukey ≠ .lt ∧ uCmp k.ukey t.imax.ukey ≠ .gt)) :=
  ⟨by decide, (reduce_spec c6o c6c c6keys (by decide) (by decide) rfl).2⟩
